import Mathlib

/-!
# Verification of the AIVoice synthesis pipeline

A shallow embedding, in Lean 4, of the text-processing core of the AIVoice
backend:

* `backend/app/services/ssml_generator.py` — the markup (SSML) generator
  (`SimpleSSMLGenerator`: `_preprocess_text`, `_split_paragraphs`,
  `_split_sentences`, `_split_long_sentence`, `_calculate_rate`,
  `_insert_sentence_breaks`, `_process_sentence`, `_process_paragraph`,
  `generate_ssml`);
* `backend/app/services/tts_service.py` — the segmentation engine
  (`TTSService.split_text` and its four strategies) and the audio assembler
  (`TTSService.concatenate_audio`);
* `backend/app/services/ssml_tts_service.py` — the streaming protocol client
  (`SSMLCommunicate.get_headers_and_data`, `SSMLCommunicate.save`).

Python `str` values are modelled as `List Char` (Python strings are sequences
of code points, as are Lean `Char` lists); the byte strings handled by the
protocol client are ASCII in every header position the code inspects, so they
are modelled the same way.  Python's whitespace class (`str.strip`, `\s`) is
modelled by its ASCII part, which is the only part the repository's data ever
contains.  Code that can raise (`range()` with a zero step, negative-index
`IndexError`) is embedded in `Except`.
-/

set_option maxRecDepth 8192

namespace AIVoice


/-! ## Python string primitives -/

/-- The ASCII part of Python's whitespace class (`str.strip`, regex `\s`). -/
def pyWs (c : Char) : Bool :=
  c = ' ' ∨ c = '\t' ∨ c = '\n' ∨ c = '\r' ∨ c = '\x0b' ∨ c = '\x0c'

/-- Python `s.strip()`: drop leading and trailing whitespace. -/
def pyStrip (l : List Char) : List Char :=
  ((l.dropWhile pyWs).reverse.dropWhile pyWs).reverse

/-- Python `s.replace(t, rep)` for a single-character pattern `t`:
every occurrence of the character is replaced in one pass. -/
def strReplaceChar (t : Char) (rep : List Char) (l : List Char) : List Char :=
  l.flatMap fun c => if c = t then rep else [c]

/-- Python `s.replace('\r\n', '\n')`: non-overlapping left-to-right
replacement of the two-character pattern. -/
def replaceCrLf : List Char → List Char
  | [] => []
  | [c] => [c]
  | c :: c2 :: rest =>
    if c = '\r' ∧ c2 = '\n' then '\n' :: replaceCrLf rest
    else c :: replaceCrLf (c2 :: rest)

/-- Emit a newline run as `re.sub(r'\n{3,}', '\n\n')` leaves it: runs of three
or more newlines become exactly two. -/
def nlRun (k : Nat) : List Char :=
  if 3 ≤ k then ['\n', '\n'] else List.replicate k '\n'

/-- Worker for `re.sub(r'\n{3,}', '\n\n')`: `k` is the length of the newline
run read so far. -/
def collapseNlAux : Nat → List Char → List Char
  | k, [] => nlRun k
  | k, c :: rest =>
    if c = '\n' then collapseNlAux (k + 1) rest
    else nlRun k ++ c :: collapseNlAux 0 rest

/-- `re.sub(r'\n{3,}', '\n\n', s)`. -/
def collapseNl (l : List Char) : List Char := collapseNlAux 0 l

/-- Space-or-tab test (the class `[ \t]`). -/
def spTab (c : Char) : Bool := c = ' ' ∨ c = '\t'

/-- Worker for `re.sub(r'[ \t]+', ' ')`: `pending` records whether a run of
spaces/tabs is open. -/
def collapseSpAux : Bool → List Char → List Char
  | pending, [] => if pending then [' '] else []
  | pending, c :: rest =>
    if spTab c then collapseSpAux true rest
    else (if pending then [' '] else []) ++ c :: collapseSpAux false rest

/-- `re.sub(r'[ \t]+', ' ', s)`. -/
def collapseSp (l : List Char) : List Char := collapseSpAux false l

/-- The five characters `_preprocess_text` escapes. -/
def isMarkupSpecial (c : Char) : Bool :=
  c = '&' ∨ c = '<' ∨ c = '>' ∨ c = '"' ∨ c = '\''

/-- Whether the list contains three consecutive newlines (the pattern of
`re.sub(r'\n{3,}', ...)` restricted to what idempotence needs). -/
def hasNlTriple : List Char → Bool
  | a :: b :: c :: rest => (a = '\n' && b = '\n' && c = '\n') || hasNlTriple (b :: c :: rest)
  | _ => false

/-- Whether the list contains two adjacent space/tab characters (the pattern
of `re.sub(r'[ \t]+', ...)` restricted to what idempotence needs). -/
def hasSpPair : List Char → Bool
  | a :: b :: rest => (spTab a && spTab b) || hasSpPair (b :: rest)
  | _ => false

/-- Python `s.split('\n\n')`: split on the two-character separator,
non-overlapping, left to right; `''.split('\n\n') == ['']`. -/
def splitOnNlNl : List Char → List (List Char)
  | [] => [[]]
  | '\n' :: '\n' :: rest => [] :: splitOnNlNl rest
  | c :: rest =>
    match splitOnNlNl rest with
    | [] => [[c]]
    | t :: ts => (c :: t) :: ts

/-- Python `re.split('(X)', s)` for a single-character class `X` (a capturing
group): the result alternates text pieces and one-character separator pieces,
beginning and ending with a (possibly empty) text piece. -/
def splitCapture (p : Char → Bool) : List Char → List (List Char)
  | [] => [[]]
  | c :: rest =>
    if p c then [] :: [c] :: splitCapture p rest
    else
      match splitCapture p rest with
      | [] => [[c]]
      | t :: ts => (c :: t) :: ts

/-- Python `s.split('，')`: split on the separator character, dropping it. -/
def splitDropChar (t : Char) : List Char → List (List Char)
  | [] => [[]]
  | c :: rest =>
    if c = t then [] :: splitDropChar t rest
    else
      match splitDropChar t rest with
      | [] => [[c]]
      | u :: ts => (c :: u) :: ts

/-- The pairing loop `for i in range(0, len(parts), 2): parts[i] + parts[i+1]`
used after every capturing `re.split` in the source: each text piece is
rejoined with the separator that follows it. -/
def pairJoin : List (List Char) → List (List Char)
  | [] => []
  | [t] => [t]
  | t :: sep :: rest => (t ++ sep) :: pairJoin rest

/-- Split `run` after its last `'\n'`; `none` when it has no newline. -/
def splitAtLastNl (run : List Char) : Option (List Char × List Char) :=
  match (run.reverse.findIdx? (· = '\n')) with
  | none => none
  | some k => some ((run.reverse.drop k).reverse, (run.reverse.take k).reverse)

/-- Fuelled worker for `re.split(r'\n\s*\n+', s)` (no capturing group, so the
matched separators are dropped).  A match starts at a `'\n'` whose following
maximal whitespace run contains another `'\n'`, and extends through the last
`'\n'` of that run. -/
def splitParaSepGo : Nat → List Char → List (List Char)
  | 0, l => [l]
  | _ + 1, [] => [[]]
  | fuel + 1, c :: rest =>
    if c = '\n' then
      match splitAtLastNl (rest.takeWhile pyWs) with
      | some pr => [] :: splitParaSepGo fuel (pr.2 ++ rest.dropWhile pyWs)
      | none =>
        match splitParaSepGo fuel rest with
        | [] => [[c]]
        | t :: ts => (c :: t) :: ts
    else
      match splitParaSepGo fuel rest with
      | [] => [[c]]
      | t :: ts => (c :: t) :: ts

/-- `re.split(r'\n\s*\n+', s)`. -/
def splitParaSep (l : List Char) : List (List Char) :=
  splitParaSepGo (l.length + 1) l

/-! ## Markup generator: configuration records

These mirror the dataclasses `VoiceConfig`, `PaceConfig`, `MoodConfig`,
`StructureConfig` and `SSMLConfig` of `ssml_generator.py`.  `Optional[str]`
fields become `Option String`; `max_sentence_len : int` becomes `Int` (it is
compared with lengths and used as a `range` step, and nothing in the code
keeps it positive). -/

structure VoiceConfig where
  name : String := "zh-CN-XiaoxiaoNeural"
  style : Option String := none
  fallback : Option String := none
  role : Option String := none
deriving Repr, DecidableEq

structure PaceConfig where
  base_rate : String := "-15%"
  opening_delta : Option String := some "-5%"
  ending_delta : Option String := some "-5%"
  transition_duration : Option String := some "300ms"
deriving Repr, DecidableEq

structure MoodConfig where
  pitch : String := "+1%"
  emphasis : Option String := none
  breathing : Bool := true
  thinking_pause : Bool := false
  volume : Option String := none
deriving Repr, DecidableEq

structure StructureConfig where
  comma_pause : String := "350ms"
  sentence_pause : String := "700ms"
  paragraph_pause : String := "1200ms"
  max_sentence_len : Int := 150
  auto_split_long_sentence : Bool := true
  chapter_pause : Option String := some "2000ms"
  dialog_pause : Option String := some "500ms"
deriving Repr, DecidableEq

structure SSMLConfig where
  voice : VoiceConfig := {}
  pace : PaceConfig := {}
  mood : MoodConfig := {}
  «structure» : StructureConfig := {}
  name : String := "Default"
deriving Repr, DecidableEq

/-! ## Markup generator: `SimpleSSMLGenerator` -/

/-- The XML escaping pass of `_preprocess_text`: five sequential
`str.replace` calls, `&` first. -/
def escapeXml (l : List Char) : List Char :=
  strReplaceChar '\'' "&apos;".data
    (strReplaceChar '"' "&quot;".data
      (strReplaceChar '>' "&gt;".data
        (strReplaceChar '<' "&lt;".data
          (strReplaceChar '&' "&amp;".data l))))

/-- `SimpleSSMLGenerator._preprocess_text`: escape XML characters, normalize
newlines, collapse 3+ newlines and horizontal-whitespace runs, strip. -/
def preprocess_text (s : String) : String :=
  String.mk (pyStrip (collapseSp (collapseNl
    (strReplaceChar '\r' "\n".data (replaceCrLf (escapeXml s.data))))))

/-- `SimpleSSMLGenerator._split_paragraphs`: split on `'\n\n'`, strip each
paragraph, drop the ones that are empty after stripping. -/
def split_paragraphs (s : String) : List (List Char) :=
  ((splitOnNlNl s.data).map pyStrip).filter (· ≠ [])

/-- The sentence-ending class `[。！？.!?]` of `_split_sentences`. -/
def sentEndGen (c : Char) : Bool :=
  c = '。' ∨ c = '！' ∨ c = '？' ∨ c = '.' ∨ c = '!' ∨ c = '?'

/-- Sign of the optional `[+-]?` group in `re.match(r'([+-]?)(\d+)%', s)`. -/
inductive RSign | plus | minus | nosign
deriving Repr, DecidableEq

/-- Numeric value of a digit string. -/
def natOfDigits (ds : List Char) : Nat :=
  ds.foldl (fun a c => a * 10 + (c.toNat - 48)) 0

/-- `re.match(r'([+-]?)(\d+)%', s)`: an optional sign, a non-empty maximal
digit run, then `'%'` (anchored at the start only; trailing text is free). -/
def parseSignDigits (s : List Char) : Option (RSign × Nat) :=
  let (sgn, rest) :=
    match s with
    | '+' :: r => (RSign.plus, r)
    | '-' :: r => (RSign.minus, r)
    | _ => (RSign.nosign, s)
  let ds := rest.takeWhile Char.isDigit
  if ds.isEmpty then none
  else
    match rest.drop ds.length with
    | '%' :: _ => some (sgn, natOfDigits ds)
    | _ => none

/-- Python `f"{v:+d}%"`. -/
def formatSigned (v : Int) : String :=
  (if v < 0 then "-" ++ toString v.natAbs else "+" ++ toString v.natAbs) ++ "%"

/-- One delta application in `_calculate_rate`: skipped when the delta is
`None` or `""` (Python truthiness) or fails to parse; a `'-'` sign subtracts,
anything else adds. -/
def deltaApply (d : Option String) (base : Int) : Int :=
  match d with
  | none => base
  | some ds =>
    if ds = "" then base
    else
      match parseSignDigits ds.data with
      | none => base
      | some (RSign.minus, v) => base - v
      | some (RSign.plus, v) => base + v
      | some (RSign.nosign, v) => base + v

/-- `SimpleSSMLGenerator._calculate_rate`: parse the base rate (an unsigned
percentage counts as negative), add the opening/ending deltas when the
sentence is first/last, format as a signed percentage. -/
def calculate_rate (cfg : SSMLConfig) (is_opening is_ending : Bool) : String :=
  match parseSignDigits cfg.pace.base_rate.data with
  | none => cfg.pace.base_rate
  | some (sgn, v) =>
    let base : Int :=
      match sgn with
      | RSign.plus => (v : Int)
      | RSign.minus => -(v : Int)
      | RSign.nosign => -(v : Int)
    let base := if is_opening then deltaApply cfg.pace.opening_delta base else base
    let base := if is_ending then deltaApply cfg.pace.ending_delta base else base
    formatSigned base

/-- `SimpleSSMLGenerator._insert_sentence_breaks`: two sequential
`str.replace` calls putting a break tag after every `'，'` and `'、'`. -/
def insert_sentence_breaks (cfg : SSMLConfig) (s : List Char) : List Char :=
  strReplaceChar '、' ("、<break time=\"" ++ cfg.«structure».comma_pause ++ "\"/>").data
    (strReplaceChar '，' ("，<break time=\"" ++ cfg.«structure».comma_pause ++ "\"/>").data s)

/-- An optional XML attribute, omitted when the value is `None` or `""`. -/
def optAttr (key : String) : Option String → List Char
  | none => []
  | some s => if s = "" then [] else (" " ++ key ++ "=\"" ++ s ++ "\"").data

/-- `SimpleSSMLGenerator._process_sentence`: wrap the sentence (with inline
comma breaks) in a prosody tag carrying rate, pitch (omitted when empty or
`"0%"`) and volume (omitted when unset or empty). -/
def process_sentence (cfg : SSMLConfig) (s : List Char) (is_opening is_ending : Bool) :
    List Char :=
  let rate := calculate_rate cfg is_opening is_ending
  let attrs := ("rate=\"" ++ rate ++ "\"").data
    ++ (if cfg.mood.pitch ≠ "" ∧ cfg.mood.pitch ≠ "0%" then
          (" pitch=\"" ++ cfg.mood.pitch ++ "\"").data
        else [])
    ++ optAttr "volume" cfg.mood.volume
  "<prosody ".data ++ attrs ++ ['>'] ++ insert_sentence_breaks cfg s ++ "</prosody>".data

/-- A `<break time="t"/>` tag. -/
def breakTag (t : String) : List Char :=
  ("<break time=\"" ++ t ++ "\"/>").data

/-- The comma-packing loop of `_split_long_sentence`, one step per part of
`sentence.split('，')`: state is (finished pieces, current accumulator). -/
def commaPackStep (maxLen : Int) (acc : List (List Char) × List Char) (part : List Char) :
    List (List Char) × List Char :=
  if (acc.2.length + part.length + 1 : Int) ≤ maxLen then
    (acc.1, acc.2 ++ (if acc.2 ≠ [] then part ++ ['，'] else part))
  else
    ((if acc.2 ≠ [] then acc.1 ++ [pyStrip acc.2] else acc.1), part)

/-- The `'，'`-packing branch of `_split_long_sentence`. -/
def commaPack (maxLen : Int) (parts : List (List Char)) : List (List Char) :=
  let acc := parts.foldl (commaPackStep maxLen) ([], [])
  (if acc.2 ≠ [] then acc.1 ++ [pyStrip acc.2] else acc.1).filter (· ≠ [])

/-- Fuelled `sentence[i:i+m] for i in range(0, len(sentence), m)` with
`m > 0`. -/
def chunksOf (m : Nat) : Nat → List Char → List (List Char)
  | _, [] => []
  | 0, s => [s]
  | fuel + 1, s => s.take m :: chunksOf m fuel (s.drop m)

/-- `SimpleSSMLGenerator._split_long_sentence`: pack by `'，'` when one is
present; otherwise hard-slice every `max_sentence_len` characters — with a
zero `max_sentence_len` that `range` call raises `ValueError`, and with a
negative one it is empty. -/
def split_long_sentence (maxLen : Int) (s : List Char) :
    Except Unit (List (List Char)) :=
  if '，' ∈ s then Except.ok (commaPack maxLen (splitDropChar '，' s))
  else if maxLen = 0 then Except.error ()
  else if maxLen < 0 then Except.ok []
  else Except.ok (chunksOf maxLen.toNat s.length s)

/-- The accumulation loop of `_split_sentences` over the rejoined
sentence/punctuation pairs. -/
def sentAccum (maxLen : Int) : List (List Char) → Except Unit (List (List Char))
  | [] => Except.ok []
  | s0 :: rest =>
    let s := pyStrip s0
    if s = [] then sentAccum maxLen rest
    else if (s.length : Int) > maxLen then do
      let a ← split_long_sentence maxLen s
      let b ← sentAccum maxLen rest
      Except.ok (a ++ b)
    else do
      let b ← sentAccum maxLen rest
      Except.ok (s :: b)

/-- `SimpleSSMLGenerator._split_sentences`. -/
def split_sentences (maxLen : Int) (p : List Char) : Except Unit (List (List Char)) :=
  sentAccum maxLen (pairJoin (splitCapture sentEndGen p))

/-- The `for i, sentence in enumerate(sentences)` loop of
`_process_paragraph`: a sentence-pause break before each sentence but the
first; `is_opening` only for the paragraph's first sentence, `is_ending`
only for its last. -/
def sentLoop (cfg : SSMLConfig) (isFirst isLast : Bool) :
    Bool → List (List Char) → List Char
  | _, [] => []
  | firstSent, [s] => process_sentence cfg s (isFirst && firstSent) isLast
  | firstSent, s :: rest =>
    process_sentence cfg s (isFirst && firstSent) false
      ++ breakTag cfg.«structure».sentence_pause
      ++ sentLoop cfg isFirst isLast false rest

/-- `SimpleSSMLGenerator._process_paragraph`. -/
def process_paragraph (cfg : SSMLConfig) (p : List Char) (isFirst isLast : Bool) :
    Except Unit (List Char) := do
  let ss ← split_sentences cfg.«structure».max_sentence_len p
  Except.ok (sentLoop cfg isFirst isLast true ss)

/-- The `for i, paragraph in enumerate(paragraphs)` loop of `generate_ssml`:
a paragraph-pause break before each paragraph but the first; the first/last
flags feed `_process_paragraph`. -/
def paraLoop (cfg : SSMLConfig) : Bool → List (List Char) → Except Unit (List Char)
  | _, [] => Except.ok []
  | firstPara, [p] => process_paragraph cfg p firstPara true
  | firstPara, p :: rest => do
    let a ← process_paragraph cfg p firstPara false
    let b ← paraLoop cfg false rest
    Except.ok (a ++ breakTag cfg.«structure».paragraph_pause ++ b)

/-- The attribute list of the `<voice>` tag: name, then optional style and
role. -/
def voiceAttrs (cfg : SSMLConfig) : List Char :=
  ("name=\"" ++ cfg.voice.name ++ "\"").data
    ++ optAttr "style" cfg.voice.style
    ++ optAttr "role" cfg.voice.role

/-- The fixed `<speak>` opening tag. -/
def speakOpen : List Char :=
  "<speak version=\"1.0\" xmlns=\"http://www.w3.org/2001/10/synthesis\" xml:lang=\"zh-CN\">".data

/-- `SimpleSSMLGenerator.generate_ssml`: preprocess, split into paragraphs,
render each paragraph, and wrap everything in the `<speak>`/`<voice>`
envelope.  The only failure path is the `ValueError` of
`_split_long_sentence` with a zero `max_sentence_len`. -/
def generate_ssml (cfg : SSMLConfig) (text : String) : Except Unit String := do
  let t := preprocess_text text
  let body ← paraLoop cfg true (split_paragraphs t)
  Except.ok (String.mk (speakOpen ++ "<voice ".data ++ voiceAttrs cfg ++ ['>']
    ++ body ++ "</voice></speak>".data))

/-! ## Segmentation engine: `TTSService.split_text` -/

/-- The sentence-ending class `[。！？.!?；;]` of `_split_by_sentences`. -/
def sentEndTts (c : Char) : Bool :=
  c = '。' ∨ c = '！' ∨ c = '？' ∨ c = '.' ∨ c = '!' ∨ c = '?' ∨ c = '；' ∨ c = ';'

/-- The separator class `[，、；;]` of `_split_by_commas`. -/
def commaTts (c : Char) : Bool :=
  c = '，' ∨ c = '、' ∨ c = '；' ∨ c = ';'

/-- The break-point set `'，。！？；; '` of `_split_by_length`. -/
def breakCharTts (c : Char) : Bool :=
  c = '，' ∨ c = '。' ∨ c = '！' ∨ c = '？' ∨ c = '；' ∨ c = ';' ∨ c = ' '

/-- One step of the paragraph-packing loop of `_split_by_paragraph`:
state is (finished chunks, current chunk);  empty paragraphs are skipped, a
fitting paragraph is appended after `'\n\n'`, an overflowing one flushes the
current chunk. -/
def paraPackStep (m : Nat) (acc : List (List Char) × List Char) (para0 : List Char) :
    List (List Char) × List Char :=
  let para := pyStrip para0
  if para = [] then acc
  else if acc.2.length + para.length + 2 ≤ m then
    (acc.1, acc.2 ++ (if acc.2 ≠ [] then '\n' :: '\n' :: para else para))
  else
    ((if pyStrip acc.2 ≠ [] then acc.1 ++ [pyStrip acc.2] else acc.1), para)

/-- The common tail of strategies 1–3: flush the final chunk (stripped, if
non-blank), and fall back to `[text]` when nothing was produced. -/
def packFinish (t : List Char) (acc : List (List Char) × List Char) :
    List (List Char) :=
  let chunks := if pyStrip acc.2 ≠ [] then acc.1 ++ [pyStrip acc.2] else acc.1
  if chunks = [] then [t] else chunks

/-- `TTSService._split_by_paragraph`. -/
def split_by_paragraph (t : List Char) (m : Nat) : List (List Char) :=
  packFinish t ((splitParaSep (pyStrip t)).foldl (paraPackStep m) ([], []))

/-- One step of the greedy packing loop shared by `_split_by_sentences` and
`_split_by_commas`. -/
def packStep (m : Nat) (acc : List (List Char) × List Char) (piece : List Char) :
    List (List Char) × List Char :=
  if acc.2.length + piece.length ≤ m then (acc.1, acc.2 ++ piece)
  else
    ((if pyStrip acc.2 ≠ [] then acc.1 ++ [pyStrip acc.2] else acc.1), piece)

/-- `TTSService._split_by_sentences`. -/
def split_by_sentences (t : List Char) (m : Nat) : List (List Char) :=
  packFinish t ((pairJoin (splitCapture sentEndTts t)).foldl (packStep m) ([], []))

/-- `TTSService._split_by_commas`. -/
def split_by_commas (t : List Char) (m : Nat) : List (List Char) :=
  packFinish t ((pairJoin (splitCapture commaTts t)).foldl (packStep m) ([], []))

/-- Python `text[k]` for an `int` index: negative indices wrap from the end,
out-of-range raises `IndexError` (here `none`). -/
def pyIndex (t : List Char) (k : Int) : Option Char :=
  if 0 ≤ k then t[k.toNat]?
  else if 0 ≤ (t.length : Int) + k then t[((t.length : Int) + k).toNat]? else none

/-- Python `text[a:b]`: negative bounds wrap from the end, everything is
clamped to the string. -/
def pySlice (t : List Char) (a b : Int) : List Char :=
  let norm : Int → Nat := fun x =>
    if x < 0 then (max 0 ((t.length : Int) + x)).toNat else min x.toNat t.length
  (t.take (norm b)).drop (norm a)

/-- The index offsets `range(max_chars - 1, max_chars - 50, -1)` scanned
backwards from a cut point of `_split_by_length`. -/
def scanJs (m : Nat) : List Int :=
  (List.range 49).map fun k : Nat => (m : Int) - 1 - (k : Int)

/-- The backward scan of `_split_by_length` for a break character: Python
evaluates `text[i + j]`, so a negative `i + j` wraps around and an index
below `-len(text)` raises `IndexError`. -/
def scanBreak (t : List Char) (i : Nat) : List Int → Except Unit (Option Int)
  | [] => Except.ok none
  | j :: rest =>
    match pyIndex t ((i : Int) + j) with
    | none => Except.error ()
    | some c => if breakCharTts c then Except.ok (some j) else scanBreak t i rest

/-- Fuelled `for i in range(0, len(text), max_chars)` loop of
`_split_by_length`: each chunk is `text[i:i+max_chars]`, shortened to end at
a break character found by the backward scan when the cut is not final, and
stripped. -/
def splitByLengthGo (t : List Char) (m : Nat) : Nat → Nat → Except Unit (List (List Char))
  | 0, _ => Except.ok []
  | fuel + 1, i =>
    if i < t.length then
      match (if i + m < t.length then scanBreak t i (scanJs m) else Except.ok none) with
      | Except.error e => Except.error e
      | Except.ok cut =>
        let chunk :=
          match cut with
          | some j => pySlice t (i : Int) ((i : Int) + j + 1)
          | none => pySlice t (i : Int) ((i : Int) + (m : Int))
        match splitByLengthGo t m fuel (i + m) with
        | Except.error e => Except.error e
        | Except.ok rest => Except.ok (pyStrip chunk :: rest)
    else Except.ok []

/-- `TTSService._split_by_length`; a zero `max_chars` makes the `range` call
raise `ValueError`. -/
def split_by_length (t : List Char) (m : Nat) : Except Unit (List (List Char)) :=
  if m = 0 then Except.error ()
  else splitByLengthGo t m (t.length + 1) 0

/-- The acceptance test of the strategy cascade in `split_text`:
`len(chunks) > 1 or len(chunks[0]) <= max_chars`. -/
def acceptChunks (cs : List (List Char)) (m : Nat) : Bool :=
  1 < cs.length ∨ (cs.headD []).length ≤ m

/-- `TTSService.split_text` on code-point lists: short text is returned
whole, otherwise the first strategy whose output passes `acceptChunks` wins,
with the hard length cut as the unconditional last resort. -/
def splitTextCore (t : List Char) (m : Nat) : Except Unit (List (List Char)) :=
  if t.length ≤ m then Except.ok [t]
  else
    let c1 := split_by_paragraph t m
    if acceptChunks c1 m then Except.ok c1
    else
      let c2 := split_by_sentences t m
      if acceptChunks c2 m then Except.ok c2
      else
        let c3 := split_by_commas t m
        if acceptChunks c3 m then Except.ok c3
        else split_by_length t m

/-- `TTSService.split_text`. -/
def split_text (t : String) (m : Nat) : Except Unit (List String) :=
  (splitTextCore t.data m).map (List.map String.mk)

/-! ## Protocol client: `SSMLCommunicate`

The frames delivered to `SSMLCommunicate.save` before the connection closes
are modelled as a list of websocket messages; the code only reads TEXT and
ERROR messages.  TEXT payloads are byte strings (`received.data.encode`),
modelled as `List Char` — every position the code inspects (`\r\n`
separators, header keys/values) is ASCII, where bytes and code points
coincide. -/

inductive WSMsg
  /-- `aiohttp.WSMsgType.TEXT` with its (utf-8 encoded) bytes. -/
  | text (data : List Char)
  /-- `aiohttp.WSMsgType.ERROR`. -/
  | error
  /-- any other message type: the loop body ignores it. -/
  | other
deriving Repr, DecidableEq

/-- The separator `b"\r\n\r\n"`. -/
def crlf2 : List Char := ['\r', '\n', '\r', '\n']

/-- `data.find(b"\r\n\r\n")`: index of the first occurrence, `none` when
absent (Python returns `-1`, which the caller's `> 0` guard filters out just
like an occurrence at index 0). -/
def findSub4 : List Char → Option Nat
  | [] => none
  | c :: rest =>
    if crlf2.isPrefixOf (c :: rest) then some 0
    else (findSub4 rest).map (· + 1)

/-- `data.split(b"\r\n")`. -/
def splitCrLf : List Char → List (List Char)
  | [] => [[]]
  | '\r' :: '\n' :: rest => [] :: splitCrLf rest
  | c :: rest =>
    match splitCrLf rest with
    | [] => [[c]]
    | t :: ts => (c :: t) :: ts

/-- One header line: `if b":" in line: key, value = line.split(b":", 1)`. -/
def headerEntry (line : List Char) : Option (List Char × List Char) :=
  if ':' ∈ line then
    some (line.takeWhile (· ≠ ':'), (line.dropWhile (· ≠ ':')).tail)
  else none

/-- Dictionary lookup: the last binding of a key wins, as in a Python `dict`
built by repeated assignment. -/
def lookupLast (k : List Char) (hs : List (List Char × List Char)) :
    Option (List Char) :=
  ((hs.filter (·.1 = k)).getLast?).map (·.2)

/-- `SSMLCommunicate.get_headers_and_data(data, header_length)`: headers are
parsed from `data[:header_length]`, and the returned body is
`data[header_length + 2:]` — two bytes of the `\r\n\r\n` separator are kept
at the front of the body. -/
def get_headers_and_data (data : List Char) (headerLength : Nat) :
    List (List Char × List Char) × List Char :=
  ((splitCrLf (data.take headerLength)).filterMap headerEntry,
    data.drop (headerLength + 2))

/-- What the response loop of `save` appends for one TEXT frame: the body
returned by `get_headers_and_data`, but only when the separator occurs at a
positive index and the `Path` header equals `audio`. -/
def audioPayload (d : List Char) : Option (List Char) :=
  match findSub4 d with
  | none => none
  | some idx =>
    if 0 < idx then
      let pr := get_headers_and_data d idx
      if lookupLast "Path".data pr.1 = some "audio".data then some pr.2 else none
    else none

/-- The receive loop of `SSMLCommunicate.save`, plus the final
`if not audio_was_received: raise` check: `acc` is `audio_data`, `received`
is `audio_was_received`. -/
def saveGo (acc : List Char) (received : Bool) : List WSMsg → Except String (List Char)
  | [] => if received then Except.ok acc else Except.error "No audio data received"
  | WSMsg.text d :: rest =>
    match audioPayload d with
    | some body => saveGo (acc ++ body) true rest
    | none => saveGo acc received rest
  | WSMsg.error :: _ => Except.error "WebSocket error"
  | WSMsg.other :: rest => saveGo acc received rest

/-- `SSMLCommunicate.save`, as a function of the received frames: the bytes
that would be written to the output file, or the raised error. -/
def save (msgs : List WSMsg) : Except String (List Char) :=
  saveGo [] false msgs

/-- Whether a message is an audio frame in the sense of the loop: a TEXT
frame whose separator index is positive and whose `Path` header is
`audio`. -/
def isAudioMsg : WSMsg → Bool
  | WSMsg.text d => (audioPayload d).isSome
  | _ => false

/-! ## Audio assembler: `TTSService.concatenate_audio`

The filesystem/process side is abstracted: `ffmpegOk` is whether the ffmpeg
concat subprocess succeeds, `wavOk` whether the wave-module decode/rejoin
fallback succeeds.  `AssembleWrite` records which audio ends up in the output
file; the *returned* value of the Python coroutine is `None` on every
non-raising path, so the caller-visible result is obtained by discarding the
write record (`concatenate_audio_ret`). -/

inductive AssembleWrite
  /-- the output file holds the concatenation of all parts. -/
  | allParts
  /-- the last-resort path: the output file holds only the first part. -/
  | firstPartOnly
deriving Repr, DecidableEq

/-- `TTSService.concatenate_audio`: error on no parts, a single part is
copied whole, then ffmpeg concat → wave rejoin → copy-first-chunk
fallbacks. -/
def concatenate_audio (parts : List String) (ffmpegOk wavOk : Bool) :
    Except String AssembleWrite :=
  if parts.isEmpty then Except.error "No audio parts to concatenate"
  else if parts.length = 1 then Except.ok AssembleWrite.allParts
  else if ffmpegOk then Except.ok AssembleWrite.allParts
  else if wavOk then Except.ok AssembleWrite.allParts
  else Except.ok AssembleWrite.firstPartOnly

/-- The value `concatenate_audio` actually returns to its caller (`None`
unless it raised): the write record is a filesystem effect, not part of the
return value. -/
def concatenate_audio_ret (parts : List String) (ffmpegOk wavOk : Bool) :
    Except String Unit :=
  (concatenate_audio parts ffmpegOk wavOk).map fun _ => ()

/-- The bytes one message contributes to the accumulated audio. -/
def msgPayload : WSMsg → Option (List Char)
  | WSMsg.text d => audioPayload d
  | _ => none

/-- The empty-content markup document of the spec: the document root and the
voice scope with no sentence content between them. -/
def emptyContentDoc (cfg : SSMLConfig) : String :=
  String.mk (speakOpen ++ "<voice ".data ++ voiceAttrs cfg ++ ['>'] ++ "</voice></speak>".data)

/-- The signed value `_calculate_rate` assigns to a parsed base rate:
`-` and missing signs are negative, `+` is positive. -/
def baseRateVal : RSign → Nat → Int
  | RSign.plus, v => (v : Int)
  | RSign.minus, v => -(v : Int)
  | RSign.nosign, v => -(v : Int)

/-- The signed value `_calculate_rate` adds for an opening/ending delta:
`0` when the delta is unset, empty or unparseable, otherwise negative for
`-` and positive for `+` or no sign. -/
def deltaVal : Option String → Int
  | none => 0
  | some ds =>
    if ds = "" then 0
    else
      match parseSignDigits ds.data with
      | none => 0
      | some (RSign.minus, v) => -(v : Int)
      | some (RSign.plus, v) => (v : Int)
      | some (RSign.nosign, v) => (v : Int)

/-- The scenario configuration of the claim: base rate `"-15%"`, opening
delta `"-5%"`, no ending delta. -/
def c3Config : SSMLConfig :=
  { pace := { base_rate := "-15%", opening_delta := some "-5%", ending_delta := none } }

/-- The markup rendered for the single-sentence scenario text. -/
def c3Output : String :=
  "<speak version=\"1.0\" xmlns=\"http://www.w3.org/2001/10/synthesis\" xml:lang=\"zh-CN\"><voice name=\"zh-CN-XiaoxiaoNeural\"><prosody rate=\"-20%\" pitch=\"+1%\">你好。</prosody></voice></speak>"

/-- The non-escaping tail of `_preprocess_text`: newline normalization,
blank-line and horizontal-whitespace collapsing, and strip. -/
def normCore (l : List Char) : List Char :=
  pyStrip (collapseSp (collapseNl
    (strReplaceChar '\r' "\n".data (replaceCrLf l))))

/-! ### Comma-pause sensitivity (claim C8): the rendered markup as a
template over the `comma_pause` value

The only place `Structure.comma_pause` flows into `generate_ssml` is the
break tag `_insert_sentence_breaks` writes after `'，'`/`'、'`.  The output
is therefore a fixed token template (literals plus comma-pause holes), and
two pause values yield different markup exactly when at least one hole
exists. -/

/-- One token of the rendered-markup template. -/
inductive Tok
  | lit (s : List Char)
  | hole
deriving Repr, DecidableEq

/-- Render one token with a given comma-pause value. -/
def renderTok (cp : List Char) : Tok → List Char
  | Tok.lit s => s
  | Tok.hole => cp

/-- Instantiate a template with a comma-pause value. -/
def substTok (cp : List Char) (tl : List Tok) : List Char :=
  tl.flatMap (renderTok cp)

/-- Whether a token is a comma-pause hole. -/
def isHole : Tok → Bool
  | Tok.hole => true
  | Tok.lit _ => false

/-- Number of comma-pause holes in a template. -/
def holes (tl : List Tok) : Nat := tl.countP isHole

/-- Total length of the literal part of a template. -/
def litLen : List Tok → Nat
  | [] => 0
  | Tok.lit s :: r => s.length + litLen r
  | Tok.hole :: r => litLen r

/-- Replace only the `comma_pause` field of a configuration. -/
def setCp (cfg : SSMLConfig) (cp : String) : SSMLConfig :=
  { cfg with «structure» := { cfg.«structure» with comma_pause := cp } }

/-- The template of `_insert_sentence_breaks` for one character. -/
def tokChar (c : Char) : List Tok :=
  if c = '，' then [Tok.lit "，<break time=\"".data, Tok.hole, Tok.lit "\"/>".data]
  else if c = '、' then [Tok.lit "、<break time=\"".data, Tok.hole, Tok.lit "\"/>".data]
  else [Tok.lit [c]]

/-- The template of `_insert_sentence_breaks` for a sentence. -/
def insertBreaksTok (s : List Char) : List Tok := s.flatMap tokChar

/-- The template of `_process_sentence`. -/
def processSentenceTok (cfg : SSMLConfig) (s : List Char) (op en : Bool) : List Tok :=
  Tok.lit ("<prosody ".data
      ++ (("rate=\"" ++ calculate_rate cfg op en ++ "\"").data
        ++ (if cfg.mood.pitch ≠ "" ∧ cfg.mood.pitch ≠ "0%" then
              (" pitch=\"" ++ cfg.mood.pitch ++ "\"").data
            else [])
        ++ optAttr "volume" cfg.mood.volume)
      ++ ['>'])
    :: insertBreaksTok s ++ [Tok.lit "</prosody>".data]

/-- The template of the sentence loop of `_process_paragraph`. -/
def sentLoopTok (cfg : SSMLConfig) (isFirst isLast : Bool) :
    Bool → List (List Char) → List Tok
  | _, [] => []
  | firstSent, [s] => processSentenceTok cfg s (isFirst && firstSent) isLast
  | firstSent, s :: rest =>
    processSentenceTok cfg s (isFirst && firstSent) false
      ++ Tok.lit (breakTag cfg.«structure».sentence_pause)
      :: sentLoopTok cfg isFirst isLast false rest

/-- The template of `_process_paragraph`. -/
def processParagraphTok (cfg : SSMLConfig) (p : List Char) (isFirst isLast : Bool) :
    Except Unit (List Tok) := do
  let ss ← split_sentences cfg.«structure».max_sentence_len p
  Except.ok (sentLoopTok cfg isFirst isLast true ss)

/-- The template of the paragraph loop of `generate_ssml`. -/
def paraLoopTok (cfg : SSMLConfig) : Bool → List (List Char) → Except Unit (List Tok)
  | _, [] => Except.ok []
  | firstPara, [p] => processParagraphTok cfg p firstPara true
  | firstPara, p :: rest => do
    let a ← processParagraphTok cfg p firstPara false
    let b ← paraLoopTok cfg false rest
    Except.ok (a ++ Tok.lit (breakTag cfg.«structure».paragraph_pause) :: b)

/-- The template of `generate_ssml`. -/
def generateTok (cfg : SSMLConfig) (text : String) : Except Unit (List Tok) := do
  let body ← paraLoopTok cfg true (split_paragraphs (preprocess_text text))
  Except.ok (Tok.lit (speakOpen ++ "<voice ".data ++ voiceAttrs cfg ++ ['>'])
    :: body ++ [Tok.lit "</voice></speak>".data])

/-- The comma-pause counterexample config pair: identical except for
`comma_pause`, with a tiny `max_sentence_len`. -/
def c8cexA : SSMLConfig :=
  { «structure» := { max_sentence_len := 1, comma_pause := "350ms" } }

/-! ## General helper lemmas -/

theorem ebind_ok {ε α β : Type} (x : Except ε α) (f : α → Except ε β) (a : α)
    (h : x = Except.ok a) : (x >>= f) = f a := by
  subst h; rfl

theorem ebind_eq_ok {ε α β : Type} {x : Except ε α} {f : α → Except ε β} {b : β}
    (h : (x >>= f) = Except.ok b) : ∃ a, x = Except.ok a ∧ f a = Except.ok b := by
  cases x with
  | ok a => exact ⟨a, rfl, h⟩
  | error e => exact absurd h (by simp [Bind.bind, Except.bind])

theorem pyStripPrefixFact (l : List Char) : pyStrip l <+: l.dropWhile pyWs := by
  unfold pyStrip
  have h2 : (l.dropWhile pyWs).reverse.dropWhile pyWs <:+ (l.dropWhile pyWs).reverse :=
    List.dropWhile_suffix _
  obtain ⟨t, ht⟩ := h2
  refine ⟨t.reverse, ?_⟩
  have := congrArg List.reverse ht
  simpa [List.reverse_append] using this

theorem pyStripInfixFact (l : List Char) : pyStrip l <:+: l :=
  (pyStripPrefixFact l).isInfix.trans (List.dropWhile_suffix _).isInfix

theorem pyStrip_length_le (l : List Char) : (pyStrip l).length ≤ l.length :=
  (pyStripInfixFact l).sublist.length_le

/-! ## Claim theorems -/

/-- C1: the claim that `concat(split_text(T, S)) == T` holds for every text
and every `S > 0` is violated by the code itself: on `"ab cd fgh"` with
`S = 5` the hard length cut finds the space at offset 2, emits the stripped
chunk `"ab"`, but still advances by `max_chars`, so `"cd"` (and the
surrounding spaces) are dropped — the concatenation of the returned chunks
is `"abfgh"`, not the input.  This contradicts the spec's reconstruction
invariant ("strategy 4 never drops characters by construction") and the
repository's own integrity check (`test_large_text.py` compares
`len("".join(chunks))` with `len(text)`). -/
theorem C1_split_text_drops_characters :
    split_text "ab cd fgh" 5 = Except.ok ["ab", "fgh"] ∧
    String.join ["ab", "fgh"] ≠ "ab cd fgh" := by
  exact ⟨by rfl, by decide⟩

theorem scanBreak_mem (t : List Char) (i : Nat) :
    ∀ (js : List Int) (j : Int), scanBreak t i js = Except.ok (some j) → j ∈ js := by
  intro js
  induction js with
  | nil => intro j h; exact absurd h (by simp [scanBreak])
  | cons j0 rest ih =>
    intro j h
    rw [scanBreak] at h
    cases hpi : pyIndex t ((i : Int) + j0) with
    | none => rw [hpi] at h; exact absurd h (by simp)
    | some c =>
      rw [hpi] at h
      by_cases hb : breakCharTts c
      · simp [hb] at h; simp [h]
      · simp [hb] at h; exact List.mem_cons_of_mem _ (ih j h)

theorem scanJs_bounds (m : Nat) (j : Int) (h : j ∈ scanJs m) :
    (m : Int) - 49 ≤ j ∧ j ≤ (m : Int) - 1 := by
  simp only [scanJs, List.mem_map] at h
  obtain ⟨k, hk, hkj⟩ := h
  rw [List.mem_range] at hk
  omega

theorem pySlice_length_le (t : List Char) (i m : Nat) (e : Int)
    (h0 : 0 ≤ e) (he : e ≤ (i : Int) + (m : Int)) :
    (pySlice t (i : Int) e).length ≤ m := by
  unfold pySlice
  have h1 : ¬ ((i : Int) < 0) := by omega
  have h2 : ¬ (e < 0) := by omega
  simp only [h1, h2, if_false, Int.toNat_natCast]
  rw [List.length_drop, List.length_take]
  have : e.toNat ≤ i + m := by omega
  omega

theorem splitByLengthGo_bound (t : List Char) (m : Nat) (h50 : 50 ≤ m) :
    ∀ (fuel i : Nat) (res : List (List Char)),
      splitByLengthGo t m fuel i = Except.ok res → ∀ c ∈ res, c.length ≤ m := by
  intro fuel
  induction fuel with
  | zero =>
    intro i res h c hc
    rw [splitByLengthGo] at h
    cases h; simp at hc
  | succ fuel ih =>
    intro i res h c hc
    rw [splitByLengthGo] at h
    by_cases hi : i < t.length
    · rw [if_pos hi] at h
      cases hscan : (if i + m < t.length then scanBreak t i (scanJs m) else Except.ok none) with
      | error e => rw [hscan] at h; exact absurd h (by simp)
      | ok cut =>
        rw [hscan] at h
        cases hrest : splitByLengthGo t m fuel (i + m) with
        | error e => simp only [hrest] at h; exact absurd h (by simp)
        | ok rest =>
          simp only [hrest] at h
          injection h with h
          subst h
          rcases List.mem_cons.mp hc with hc1 | hc2
          · subst hc1
            cases cut with
            | none =>
              refine le_trans (pyStrip_length_le _) ?_
              exact pySlice_length_le t i m ((i : Int) + (m : Int)) (by omega) (by omega)
            | some j =>
              have hj : j ∈ scanJs m := by
                by_cases hin : i + m < t.length
                · rw [if_pos hin] at hscan; exact scanBreak_mem t i _ j hscan
                · rw [if_neg hin] at hscan; cases hscan
              obtain ⟨hj1, hj2⟩ := scanJs_bounds m j hj
              refine le_trans (pyStrip_length_le _) ?_
              exact pySlice_length_le t i m ((i : Int) + j + 1) (by omega) (by omega)
          · exact ih (i + m) rest hrest c hc2
    · rw [if_neg hi] at h
      cases h; simp at hc

/-- C2: on `"ab\n\ncdefghij"` with `S = 5` the cascade stops at the paragraph
strategy because it produced more than one chunk (`split_text` accepts a
strategy as soon as `len(chunks) > 1 or len(chunks[0]) <= max_chars`, it
never checks that *all* chunks fit), so the returned chunk `"cdefghij"`
exceeds `S` even though the hard-cut fallback was never applied to it. -/
theorem C2_counterexample :
    split_text "ab\n\ncdefghij" 5 = Except.ok ["ab", "cdefghij"] ∧
    ¬ ∀ c ∈ ["ab", "cdefghij"], String.length c ≤ 5 := by
  exact ⟨by rfl, by decide⟩

/-- C2 amended: the cascade takes the first strategy whose output has more
than one chunk (or one chunk within the bound), so chunks of strategies 1–3
may exceed `S` whenever a paragraph/sentence/clause unit exceeds `S`, with
the hard cut never applied to them.  Only the hard-cut strategy itself
bounds every chunk by `S`, and (because its backward scan would wrap around
through Python negative indexing for tiny `S`) this holds for every
`S ≥ 50`: each emitted chunk is a slice from `i` to at most `i + S`,
stripped. -/
theorem C2_hard_cut_chunks_bounded (t : List Char) (m : Nat)
    (res : List (List Char)) (h50 : 50 ≤ m)
    (h : split_by_length t m = Except.ok res) :
    ∀ c ∈ res, c.length ≤ m := by
  unfold split_by_length at h
  rw [if_neg (by omega)] at h
  exact splitByLengthGo_bound t m h50 _ 0 res h

/-- C2 witness: the hard cut at `S = 50` on a short text returns the single
stripped chunk `"ab cd fgh"`, which obeys the bound. -/
theorem C2_hard_cut_chunks_bounded_witness :
    List.length "ab cd fgh".data ≤ 50 :=
  C2_hard_cut_chunks_bounded "ab cd fgh".data 50 ["ab cd fgh".data]
    (le_refl 50) rfl "ab cd fgh".data (by decide)

/-- C4: if the connection closes before any frame with `Path: audio` was
observed, `SSMLCommunicate.save` raises (`"No audio data received"`, or the
websocket-error path) — it never returns successfully, so empty-but-successful
audio is impossible. -/
theorem C4_no_audio_frames_is_error (msgs : List WSMsg)
    (h : ∀ mg ∈ msgs, isAudioMsg mg = false) :
    ∃ e, save msgs = Except.error e := by
  suffices hgen : ∀ (acc : List Char), ∃ e, saveGo acc false msgs = Except.error e by
    exact hgen []
  induction msgs with
  | nil => exact fun acc => ⟨"No audio data received", rfl⟩
  | cons mg rest ih =>
    intro acc
    have hrest : ∀ m ∈ rest, isAudioMsg m = false := fun m hm => h m (List.mem_cons_of_mem _ hm)
    have hmg : isAudioMsg mg = false := h mg (List.mem_cons_self _ _)
    cases mg with
    | text d =>
      have hp : audioPayload d = none := by
        simpa [isAudioMsg, Option.isSome_iff_exists] using hmg
      simpa [saveGo, hp] using ih hrest acc
    | error => exact ⟨"WebSocket error", rfl⟩
    | other => simpa [saveGo] using ih hrest acc

/-- C4 witness: a single close-preceded frame whose `Path` is `turn.end`
observes no audio, and `save` returns an error on it. -/
theorem C4_no_audio_frames_is_error_witness :
    ∃ e, save [WSMsg.text "Path:turn.end\r\n\r\n".data] = Except.error e :=
  C4_no_audio_frames_is_error [WSMsg.text "Path:turn.end\r\n\r\n".data] (by decide)

theorem saveGo_ok_payloads :
    ∀ (msgs : List WSMsg) (acc : List Char) (r : Bool) (out : List Char),
      saveGo acc r msgs = Except.ok out →
      out = acc ++ (msgs.filterMap msgPayload).flatten := by
  intro msgs
  induction msgs with
  | nil =>
    intro acc r out h
    cases r with
    | true => injection h with h; simp [← h]
    | false => exact absurd h (by simp [saveGo])
  | cons mg rest ih =>
    intro acc r out h
    cases mg with
    | text d =>
      rw [saveGo] at h
      cases hp : audioPayload d with
      | some body =>
        rw [hp] at h
        have := ih (acc ++ body) true out h
        simp [this, msgPayload, List.filterMap_cons, hp]
      | none =>
        rw [hp] at h
        have := ih acc r out h
        simp [this, msgPayload, List.filterMap_cons, hp]
    | error => exact absurd h (by simp [saveGo])
    | other =>
      rw [saveGo] at h
      have := ih acc r out h
      simp [this, msgPayload, List.filterMap_cons]

theorem findSub4_drop (d : List Char) :
    ∀ (idx : Nat), findSub4 d = some idx →
      d.drop idx = '\r' :: '\n' :: '\r' :: '\n' :: d.drop (idx + 4) := by
  induction d with
  | nil => intro idx h; exact absurd h (by simp [findSub4])
  | cons c rest ih =>
    intro idx h
    rw [findSub4] at h
    by_cases hp : crlf2.isPrefixOf (c :: rest)
    · rw [if_pos hp] at h
      injection h with h
      subst h
      obtain ⟨t1, ht⟩ : crlf2 <+: (c :: rest) := by
        exact (List.isPrefixOf_iff_prefix).mp hp
      rw [← ht]
      simp [crlf2]
    · rw [if_neg hp] at h
      obtain ⟨i0, hi0, rfl⟩ : ∃ i0, findSub4 rest = some i0 ∧ i0 + 1 = idx := by
        cases hfr : findSub4 rest with
        | none => rw [hfr] at h; exact absurd h (by simp)
        | some i0 => rw [hfr] at h; injection h with h; exact ⟨i0, rfl, h⟩
      have := ih i0 hi0
      simpa using this

/-- C5: the claim that exactly the payload bytes after the first `\r\n\r\n`
are appended is false: `get_headers_and_data` returns `data[header_length+2:]`,
so the last two bytes of the separator are prepended to every audio payload.
On a single audio frame whose separator starts at index 10, `save` returns
`"\r\nMP3"`, not the post-separator bytes `"MP3"`. -/
theorem C5_counterexample :
    save [WSMsg.text "Path:audio\r\n\r\nMP3".data] = Except.ok "\r\nMP3".data ∧
    findSub4 "Path:audio\r\n\r\nMP3".data = some 10 ∧
    ("Path:audio\r\n\r\nMP3".data).drop (10 + 4) = "MP3".data ∧
    "\r\nMP3".data ≠ "MP3".data := by
  exact ⟨by rfl, by rfl, by decide, by decide⟩

/-- C5 amended: each frame is split at the *first* `\r\n\r\n` (headers from
the prefix), and the accumulated audio is the concatenation, in arrival
order, of the per-frame bodies — but each body consists of the frame's bytes
from index `header_length + 2`, i.e. the final `\r\n` of the separator
followed by the true payload, rather than the payload alone. -/
theorem C5_payload_keeps_two_separator_bytes :
    (∀ (msgs : List WSMsg) (out : List Char),
      save msgs = Except.ok out → out = (msgs.filterMap msgPayload).flatten) ∧
    (∀ (d : List Char) (idx : Nat), findSub4 d = some idx →
      (get_headers_and_data d idx).2 = '\r' :: '\n' :: d.drop (idx + 4)) := by
  constructor
  · intro msgs out h
    simpa using saveGo_ok_payloads msgs [] false out h
  · intro d idx h
    have hd := findSub4_drop d idx h
    have : (get_headers_and_data d idx).2 = d.drop (idx + 2) := rfl
    rw [this]
    have h2 : d.drop (idx + 2) = (d.drop idx).drop 2 := by
      rw [List.drop_drop]
    rw [h2, hd]
    simp

/-- C5 witness: the amended payload law applied to the concrete single-frame
session of the counterexample. -/
theorem C5_payload_keeps_two_separator_bytes_witness :
    "\r\nMP3".data =
      (([WSMsg.text "Path:audio\r\n\r\nMP3".data]).filterMap msgPayload).flatten :=
  C5_payload_keeps_two_separator_bytes.1 [WSMsg.text "Path:audio\r\n\r\nMP3".data]
    "\r\nMP3".data rfl

/-- C6: the claim that the caller can detect the use-first-chunk-only
last resort through a returned flag is false: `concatenate_audio` returns
`None` on every non-raising path, so on two parts the fully degraded run
writes only the first chunk yet returns exactly the value of the fully
successful run. -/
theorem C6_counterexample :
    concatenate_audio ["a.mp3", "b.mp3"] false false = Except.ok AssembleWrite.firstPartOnly ∧
    concatenate_audio ["a.mp3", "b.mp3"] true true = Except.ok AssembleWrite.allParts ∧
    concatenate_audio_ret ["a.mp3", "b.mp3"] false false =
      concatenate_audio_ret ["a.mp3", "b.mp3"] true true := by
  exact ⟨rfl, rfl, rfl⟩

/-- C6 amended: the assemble operation returns no flag at all — its returned
value is completely independent of which fallback (if any) produced the
output file, so the degraded outcome is not detectable from the return
value. -/
theorem C6_return_value_carries_no_flag
    (parts : List String) (f1 w1 f2 w2 : Bool) :
    concatenate_audio_ret parts f1 w1 = concatenate_audio_ret parts f2 w2 := by
  unfold concatenate_audio_ret concatenate_audio
  by_cases he : parts.isEmpty
  · simp [he]
  · by_cases h1 : parts.length = 1
    · simp [he, h1]
    · cases f1 <;> cases w1 <;> cases f2 <;> cases w2 <;> simp [he, h1, Except.map]

@[simp] theorem ok_bind {ε α β : Type} (a : α) (f : α → Except ε β) :
    (Except.ok a >>= f) = f a := rfl

@[simp] theorem error_bind {ε α β : Type} (e : ε) (f : α → Except ε β) :
    ((Except.error e : Except ε α) >>= f) = Except.error e := rfl

theorem split_long_sentence_ok (maxLen : Int) (s : List Char) (h : maxLen ≠ 0) :
    ∃ r, split_long_sentence maxLen s = Except.ok r := by
  unfold split_long_sentence
  by_cases hc : '，' ∈ s
  · exact ⟨_, by rw [if_pos hc]⟩
  · by_cases hneg : maxLen < 0
    · exact ⟨[], by rw [if_neg hc, if_neg h, if_pos hneg]⟩
    · exact ⟨_, by rw [if_neg hc, if_neg h, if_neg hneg]⟩

theorem sentAccum_ok (maxLen : Int) (h : maxLen ≠ 0) :
    ∀ ps, ∃ r, sentAccum maxLen ps = Except.ok r := by
  intro ps
  induction ps with
  | nil => exact ⟨[], rfl⟩
  | cons s0 rest ih =>
    obtain ⟨b, hb⟩ := ih
    rw [sentAccum]
    by_cases he : pyStrip s0 = []
    · exact ⟨b, by rw [if_pos he]; exact hb⟩
    · by_cases hl : ((pyStrip s0).length : Int) > maxLen
      · obtain ⟨a, ha⟩ := split_long_sentence_ok maxLen (pyStrip s0) h
        refine ⟨a ++ b, ?_⟩
        rw [if_neg he, if_pos hl]
        simp [ha, hb]
      · refine ⟨pyStrip s0 :: b, ?_⟩
        rw [if_neg he, if_neg hl]
        simp [hb]

theorem process_paragraph_ok (cfg : SSMLConfig)
    (h : cfg.«structure».max_sentence_len ≠ 0) (p : List Char) (f l : Bool) :
    ∃ r, process_paragraph cfg p f l = Except.ok r := by
  obtain ⟨ss, hss⟩ := sentAccum_ok cfg.«structure».max_sentence_len h
    (pairJoin (splitCapture sentEndGen p))
  refine ⟨sentLoop cfg f l true ss, ?_⟩
  unfold process_paragraph split_sentences
  rw [hss]
  rfl

theorem paraLoop_ok (cfg : SSMLConfig)
    (h : cfg.«structure».max_sentence_len ≠ 0) :
    ∀ (ps : List (List Char)) (fp : Bool), ∃ r, paraLoop cfg fp ps = Except.ok r := by
  intro ps
  induction ps with
  | nil => exact fun fp => ⟨[], rfl⟩
  | cons p rest ih =>
    intro fp
    cases rest with
    | nil => exact process_paragraph_ok cfg h p fp true
    | cons q rest2 =>
      obtain ⟨a, ha⟩ := process_paragraph_ok cfg h p fp false
      obtain ⟨b, hb⟩ := ih false
      refine ⟨a ++ (breakTag cfg.«structure».paragraph_pause ++ b), ?_⟩
      simp [paraLoop, ha, hb]

theorem generate_ssml_total (cfg : SSMLConfig)
    (h : cfg.«structure».max_sentence_len ≠ 0) (T : String) :
    ∃ out, generate_ssml cfg T = Except.ok out := by
  obtain ⟨body, hbody⟩ := paraLoop_ok cfg h (split_paragraphs (preprocess_text T)) true
  refine ⟨String.mk (speakOpen ++ "<voice ".data ++ voiceAttrs cfg ++ ['>']
    ++ body ++ "</voice></speak>".data), ?_⟩
  unfold generate_ssml
  simp only []
  rw [hbody]
  simp

/-- C9 counterexample: the generator is *not* total over all configs — with
`max_sentence_len = 0` and a two-character comma-free text, the hard
length-splitting step calls `range(0, len, 0)`, which raises `ValueError`. -/
theorem C9_counterexample :
    generate_ssml { «structure» := { max_sentence_len := 0 } } "ab" = Except.error () := by
  rfl

/-- C9 amended: for every configuration whose `max_sentence_len` is nonzero
the generator never fails (it returns a markup string for every input), and
for *every* configuration an input that is empty after normalization renders
as the empty-content document — root and voice annotations with no sentence
content — rather than an error. -/
theorem C9_generator_total_and_empty_doc :
    (∀ (cfg : SSMLConfig) (T : String), cfg.«structure».max_sentence_len ≠ 0 →
      ∃ out, generate_ssml cfg T = Except.ok out) ∧
    (∀ (cfg : SSMLConfig) (T : String), preprocess_text T = "" →
      generate_ssml cfg T = Except.ok (emptyContentDoc cfg)) := by
  constructor
  · exact fun cfg T h => generate_ssml_total cfg h T
  · intro cfg T h
    have hsp : split_paragraphs "" = [] := rfl
    unfold generate_ssml
    rw [h]
    simp [hsp, paraLoop, emptyContentDoc]

/-- C9 witness: whitespace-only input normalizes to the empty string, and the
generator renders the empty-content document for the default config. -/
theorem C9_generator_total_and_empty_doc_witness :
    generate_ssml {} "  " = Except.ok (emptyContentDoc {}) :=
  C9_generator_total_and_empty_doc.2 {} "  " (by decide)

theorem deltaApply_eq (d : Option String) (b : Int) :
    deltaApply d b = b + deltaVal d := by
  cases d with
  | none => simp [deltaApply, deltaVal]
  | some ds =>
    by_cases he : ds = ""
    · simp [deltaApply, deltaVal, he]
    · cases hp : parseSignDigits ds.data with
      | none => simp [deltaApply, deltaVal, he, hp]
      | some p =>
        obtain ⟨sg, v⟩ := p
        cases sg <;> simp [deltaApply, deltaVal, he, hp, Int.sub_eq_add_neg]

/-- C3: when the base rate parses, a middle sentence receives exactly the
(signed) base rate, and a sentence that is both first and last receives
`base + opening_delta + ending_delta` additively; in particular with base
`"-15%"`, opening delta `"-5%"` and no ending delta, the single-sentence
document renders with prosody rate attribute `"-20%"`. -/
theorem C3_first_and_last_gets_both_deltas :
    (∀ (cfg : SSMLConfig) (sg : RSign) (v : Nat),
      parseSignDigits cfg.pace.base_rate.data = some (sg, v) →
      calculate_rate cfg false false = formatSigned (baseRateVal sg v) ∧
      calculate_rate cfg true true =
        formatSigned (baseRateVal sg v + deltaVal cfg.pace.opening_delta
          + deltaVal cfg.pace.ending_delta)) ∧
    (generate_ssml c3Config "你好。" = Except.ok c3Output ∧
      "rate=\"-20%\"".data <:+: c3Output.data) := by
  refine ⟨?_, by rfl, by decide⟩
  intro cfg sg v h
  constructor
  · cases sg <;> simp [calculate_rate, h, baseRateVal]
  · cases sg <;> simp [calculate_rate, h, baseRateVal, deltaApply_eq]

/-- C3 witness: the rate law applied at the scenario configuration, whose
base rate parses as `-15`. -/
theorem C3_first_and_last_gets_both_deltas_witness :
    calculate_rate c3Config false false = formatSigned (baseRateVal RSign.minus 15) ∧
    calculate_rate c3Config true true =
      formatSigned (baseRateVal RSign.minus 15 + deltaVal c3Config.pace.opening_delta
        + deltaVal c3Config.pace.ending_delta) :=
  C3_first_and_last_gets_both_deltas.1 c3Config RSign.minus 15 (by decide)

/-- C10: `_calculate_rate` interprets a base rate given as a percentage
without an explicit sign as negative (slower): for a middle sentence
(neither opening nor ending), an unsigned parse yields the negated value and
only an explicit `+` yields the positive value; in particular `"15%"`
renders as `"-15%"` and `"+15%"` as `"+15%"`. -/
theorem C10_unsigned_rate_is_negative :
    (∀ (cfg : SSMLConfig) (v : Nat),
      parseSignDigits cfg.pace.base_rate.data = some (RSign.nosign, v) →
      calculate_rate cfg false false = formatSigned (-(v : Int))) ∧
    (∀ (cfg : SSMLConfig) (v : Nat),
      parseSignDigits cfg.pace.base_rate.data = some (RSign.plus, v) →
      calculate_rate cfg false false = formatSigned ((v : Int))) ∧
    calculate_rate { pace := { base_rate := "15%" } } false false = "-15%" ∧
    calculate_rate { pace := { base_rate := "+15%" } } false false = "+15%" := by
  refine ⟨?_, ?_, by rfl, by rfl⟩
  · intro cfg v h
    simp [calculate_rate, h]
  · intro cfg v h
    simp [calculate_rate, h]

/-- C10 witness: the first clause applied at the `"15%"` configuration. -/
theorem C10_unsigned_rate_is_negative_witness :
    calculate_rate { pace := { base_rate := "15%" } } false false =
      formatSigned (-(15 : Int)) :=
  C10_unsigned_rate_is_negative.1 { pace := { base_rate := "15%" } } 15 (by decide)

/-! ### Normalization idempotence (claim C7): stage lemmas -/

theorem strReplaceChar_of_not_mem (t : Char) (rep l : List Char) (h : t ∉ l) :
    strReplaceChar t rep l = l := by
  induction l with
  | nil => rfl
  | cons c rest ih =>
    have hc : c ≠ t := fun hct => h (hct ▸ List.mem_cons_self _ _)
    have hrest : t ∉ rest := fun hm => h (List.mem_cons_of_mem _ hm)
    simp [strReplaceChar] at ih ⊢
    simp [hc, ih hrest]

theorem mem_strReplaceChar (t : Char) (rep l : List Char) (c : Char)
    (h : c ∈ strReplaceChar t rep l) : c ∈ rep ∨ c ∈ l := by
  induction l with
  | nil => simp [strReplaceChar] at h
  | cons c0 rest ih =>
    simp only [strReplaceChar, List.flatMap_cons] at h
    rcases List.mem_append.mp h with h1 | h2
    · by_cases hc0 : c0 = t
      · rw [if_pos hc0] at h1; exact Or.inl h1
      · rw [if_neg hc0] at h1
        simp at h1
        exact Or.inr (h1 ▸ List.mem_cons_self _ _)
    · rcases ih h2 with h3 | h4
      · exact Or.inl h3
      · exact Or.inr (List.mem_cons_of_mem _ h4)

theorem replaceCrLf_of_not_mem (l : List Char) (h : '\r' ∉ l) :
    replaceCrLf l = l := by
  induction l with
  | nil => rfl
  | cons c rest ih =>
    have hc : c ≠ '\r' := fun hct => h (hct ▸ List.mem_cons_self _ _)
    have hrest : '\r' ∉ rest := fun hm => h (List.mem_cons_of_mem _ hm)
    cases rest with
    | nil => rfl
    | cons c2 rest2 =>
      rw [replaceCrLf, if_neg (by simp [hc]), ih hrest]

theorem mem_replaceCrLf_fuel (c : Char) :
    ∀ (n : Nat) (l : List Char), l.length ≤ n →
      c ∈ replaceCrLf l → c ∈ l ∨ c = '\n' := by
  intro n
  induction n with
  | zero =>
    intro l hl h
    have : l = [] := List.eq_nil_of_length_eq_zero (Nat.le_zero.mp hl)
    subst this
    simp [replaceCrLf] at h
  | succ n ih =>
    intro l hl h
    cases l with
    | nil => simp [replaceCrLf] at h
    | cons c0 rest =>
      cases rest with
      | nil =>
        rw [replaceCrLf] at h
        simp at h
        simp [h]
      | cons c2 rest2 =>
        rw [replaceCrLf] at h
        by_cases hp : c0 = '\r' ∧ c2 = '\n'
        · rw [if_pos hp] at h
          rcases List.mem_cons.mp h with h1 | h2
          · exact Or.inr h1
          · have hlen : rest2.length ≤ n := by simp at hl; omega
            rcases ih rest2 hlen h2 with h3 | h4
            · exact Or.inl (by simp [h3])
            · exact Or.inr h4
        · rw [if_neg hp] at h
          rcases List.mem_cons.mp h with h1 | h2
          · exact Or.inl (by simp [h1])
          · have hlen : (c2 :: rest2).length ≤ n := by simp at hl ⊢; omega
            rcases ih (c2 :: rest2) hlen h2 with h3 | h4
            · exact Or.inl (List.mem_cons_of_mem _ h3)
            · exact Or.inr h4

theorem mem_replaceCrLf (c : Char) (l : List Char)
    (h : c ∈ replaceCrLf l) : c ∈ l ∨ c = '\n' :=
  mem_replaceCrLf_fuel c l.length l (le_refl _) h

theorem mem_nlRun (c : Char) (k : Nat) (h : c ∈ nlRun k) : c = '\n' := by
  unfold nlRun at h
  by_cases h3 : 3 ≤ k
  · rw [if_pos h3] at h; simpa using h
  · rw [if_neg h3] at h; exact List.eq_of_mem_replicate h

theorem mem_collapseNlAux (c : Char) :
    ∀ (l : List Char) (k : Nat), c ∈ collapseNlAux k l → c ∈ l ∨ c = '\n' := by
  intro l
  induction l with
  | nil => intro k h; exact Or.inr (mem_nlRun c k h)
  | cons c0 rest ih =>
    intro k h
    rw [collapseNlAux] at h
    by_cases h0 : c0 = '\n'
    · rw [if_pos h0] at h
      rcases ih (k + 1) h with h1 | h2
      · exact Or.inl (List.mem_cons_of_mem _ h1)
      · exact Or.inr h2
    · rw [if_neg h0] at h
      rcases List.mem_append.mp h with h1 | h2
      · exact Or.inr (mem_nlRun c k h1)
      · rcases List.mem_cons.mp h2 with h3 | h4
        · exact Or.inl (by simp [h3])
        · rcases ih 0 h4 with h5 | h6
          · exact Or.inl (List.mem_cons_of_mem _ h5)
          · exact Or.inr h6

theorem mem_collapseSpAux (c : Char) :
    ∀ (l : List Char) (p : Bool), c ∈ collapseSpAux p l → c ∈ l ∨ c = ' ' := by
  intro l
  induction l with
  | nil =>
    intro p h
    cases p with
    | true => rw [collapseSpAux] at h; simp at h; exact Or.inr h
    | false => rw [collapseSpAux] at h; simp at h
  | cons c0 rest ih =>
    intro p h
    rw [collapseSpAux] at h
    by_cases h0 : spTab c0
    · rw [if_pos h0] at h
      rcases ih true h with h1 | h2
      · exact Or.inl (List.mem_cons_of_mem _ h1)
      · exact Or.inr h2
    · rw [if_neg h0] at h
      rcases List.mem_append.mp h with h1 | h2
      · cases p with
        | true => simp at h1; exact Or.inr h1
        | false => simp at h1
      · rcases List.mem_cons.mp h2 with h3 | h4
        · exact Or.inl (by simp [h3])
        · rcases ih false h4 with h5 | h6
          · exact Or.inl (List.mem_cons_of_mem _ h5)
          · exact Or.inr h6

theorem mem_pyStrip (c : Char) (l : List Char) (h : c ∈ pyStrip l) : c ∈ l :=
  (pyStripInfixFact l).subset h

theorem hasNlTriple_iff :
    ∀ l : List Char, hasNlTriple l = true ↔ ∃ p s, l = p ++ '\n' :: '\n' :: '\n' :: s := by
  intro l
  induction l with
  | nil =>
    simp only [hasNlTriple]
    constructor
    · intro h; exact absurd h (by simp)
    · rintro ⟨p, s, h⟩
      apply_fun List.length at h
      simp at h
      omega
  | cons a l ih =>
    cases l with
    | nil =>
      simp only [hasNlTriple]
      constructor
      · intro h; exact absurd h (by simp)
      · rintro ⟨p, s, h⟩
        apply_fun List.length at h
        simp at h
        omega
    | cons b l2 =>
      cases l2 with
      | nil =>
        simp only [hasNlTriple]
        constructor
        · intro h; exact absurd h (by simp)
        · rintro ⟨p, s, h⟩
          apply_fun List.length at h
          simp at h
          omega
      | cons c l3 =>
        rw [hasNlTriple]
        constructor
        · intro h
          rcases Bool.or_eq_true_iff.mp h with h1 | h2
          · refine ⟨[], l3, ?_⟩
            simp at h1
            simp [h1]
          · obtain ⟨p, s, hps⟩ := (ih).mp h2
            exact ⟨a :: p, s, by simp [hps]⟩
        · rintro ⟨p, s, hps⟩
          cases p with
          | nil =>
            simp at hps
            obtain ⟨ha, hb, hc, -⟩ := hps
            simp [ha, hb, hc]
          | cons x ps =>
            simp at hps
            obtain ⟨-, htail⟩ := hps
            have : hasNlTriple (b :: c :: l3) = true := (ih).mpr ⟨ps, s, htail⟩
            simp [this]

theorem hasSpPair_iff :
    ∀ l : List Char, hasSpPair l = true ↔
      ∃ p x y s, spTab x ∧ spTab y ∧ l = p ++ x :: y :: s := by
  intro l
  induction l with
  | nil =>
    simp only [hasSpPair]
    constructor
    · intro h; exact absurd h (by simp)
    · rintro ⟨p, x, y, s, -, -, h⟩
      apply_fun List.length at h
      simp at h
      omega
  | cons a l ih =>
    cases l with
    | nil =>
      simp only [hasSpPair]
      constructor
      · intro h; exact absurd h (by simp)
      · rintro ⟨p, x, y, s, -, -, h⟩
        apply_fun List.length at h
        simp at h
        omega
    | cons b l2 =>
      rw [hasSpPair]
      constructor
      · intro h
        rcases Bool.or_eq_true_iff.mp h with h1 | h2
        · have ha := (Bool.and_eq_true_iff.mp h1).1
          have hb := (Bool.and_eq_true_iff.mp h1).2
          exact ⟨[], a, b, l2, ha, hb, by simp⟩
        · obtain ⟨p, x, y, s, hx, hy, hps⟩ := (ih).mp h2
          exact ⟨a :: p, x, y, s, hx, hy, by simp [hps]⟩
      · rintro ⟨p, x, y, s, hx, hy, hps⟩
        cases p with
        | nil =>
          simp at hps
          obtain ⟨ha, hb, -⟩ := hps
          simp [ha ▸ hx, hb ▸ hy]
        | cons z ps =>
          simp at hps
          obtain ⟨-, htail⟩ := hps
          have : hasSpPair (b :: l2) = true := (ih).mpr ⟨ps, x, y, s, hx, hy, htail⟩
          simp [this]

theorem hasNlTriple_infix_mono {l₁ l₂ : List Char} (h : l₁ <:+: l₂)
    (ht : hasNlTriple l₁ = true) : hasNlTriple l₂ = true := by
  obtain ⟨u, v, huv⟩ := h
  obtain ⟨p, s, hps⟩ := (hasNlTriple_iff l₁).mp ht
  refine (hasNlTriple_iff l₂).mpr ⟨u ++ p, s ++ v, ?_⟩
  rw [← huv, hps]
  simp

theorem hasSpPair_infix_mono {l₁ l₂ : List Char} (h : l₁ <:+: l₂)
    (ht : hasSpPair l₁ = true) : hasSpPair l₂ = true := by
  obtain ⟨u, v, huv⟩ := h
  obtain ⟨p, x, y, s, hx, hy, hps⟩ := (hasSpPair_iff l₁).mp ht
  refine (hasSpPair_iff l₂).mpr ⟨u ++ p, x, y, s ++ v, hx, hy, ?_⟩
  rw [← huv, hps]
  simp

theorem hnt_cons_ne (c : Char) (l : List Char) (hc : c ≠ '\n') :
    hasNlTriple (c :: l) = hasNlTriple l := by
  cases l with
  | nil => rfl
  | cons b l2 =>
    cases l2 with
    | nil => rfl
    | cons d l3 => simp [hasNlTriple, hc]

theorem hnt_nl_cons_ne (c : Char) (l : List Char) (hc : c ≠ '\n') :
    hasNlTriple ('\n' :: c :: l) = hasNlTriple l := by
  cases l with
  | nil => rfl
  | cons b l2 => rw [hasNlTriple]; simp [hc, hnt_cons_ne c (b :: l2) hc]

theorem hnt_cons_mono (c : Char) (l : List Char) (h : hasNlTriple l = true) :
    hasNlTriple (c :: l) = true := by
  cases l with
  | nil => simp [hasNlTriple] at h
  | cons b l2 =>
    cases l2 with
    | nil => simp [hasNlTriple] at h
    | cons d l3 => rw [hasNlTriple]; simp [h]

theorem hnt_tail (c : Char) (l : List Char) (h : hasNlTriple (c :: l) = false) :
    hasNlTriple l = false := by
  by_contra hcon
  have := hnt_cons_mono c l (by revert hcon; cases hasNlTriple l <;> simp)
  rw [this] at h
  cases h

theorem nlRun_all_nl (k : Nat) : ∀ c ∈ nlRun k, c = '\n' := fun c h => mem_nlRun c k h

theorem nlRun_length_le (k : Nat) : (nlRun k).length ≤ 2 := by
  unfold nlRun
  by_cases h3 : 3 ≤ k
  · simp [h3]
  · simp [h3]; omega

theorem hnt_run_cons (a : List Char) (ha : ∀ x ∈ a, x = '\n') (hlen : a.length ≤ 2)
    (c : Char) (hc : c ≠ '\n') (tail : List Char) :
    hasNlTriple (a ++ c :: tail) = hasNlTriple tail := by
  rcases a with - | ⟨x, a2⟩
  · simpa using hnt_cons_ne c tail hc
  · rcases a2 with - | ⟨y, a3⟩
    · have hx : x = '\n' := ha x (by simp)
      subst hx
      simpa using hnt_nl_cons_ne c tail hc
    · rcases a3 with - | ⟨z, a4⟩
      · have hx : x = '\n' := ha x (by simp)
        have hy : y = '\n' := ha y (by simp)
        subst hx; subst hy
        show hasNlTriple ('\n' :: '\n' :: c :: tail) = hasNlTriple tail
        rw [hasNlTriple]
        simp [hc, hnt_nl_cons_ne c tail hc]
      · simp at hlen

theorem collapseNlAux_id :
    ∀ (l : List Char) (k : Nat), k ≤ 2 →
      hasNlTriple (List.replicate k '\n' ++ l) = false →
      collapseNlAux k l = List.replicate k '\n' ++ l := by
  intro l
  induction l with
  | nil =>
    intro k hk _
    rw [collapseNlAux]
    unfold nlRun
    rw [if_neg (by omega)]
    simp
  | cons c rest ih =>
    intro k hk h
    rw [collapseNlAux]
    by_cases hc : c = '\n'
    · rw [if_pos hc]
      subst hc
      have hrepl : List.replicate (k + 1) '\n' ++ rest
          = List.replicate k '\n' ++ '\n' :: rest := by
        rw [List.replicate_succ']; simp
      have hk1 : k ≤ 1 := by
        by_contra hk2
        have hk2' : k = 2 := by omega
        subst hk2'
        have : hasNlTriple (List.replicate 2 '\n' ++ '\n' :: rest) = true := by
          refine (hasNlTriple_iff _).mpr ⟨[], rest, ?_⟩
          rfl
        rw [this] at h
        cases h
      rw [ih (k + 1) (by omega) (by rw [hrepl]; exact h), hrepl]
    · rw [if_neg hc]
      have hrest : hasNlTriple rest = false := by
        by_contra hcon
        have h1 : hasNlTriple rest = true := by revert hcon; cases hasNlTriple rest <;> simp
        have h2 : rest <:+: List.replicate k '\n' ++ c :: rest :=
          ⟨List.replicate k '\n' ++ [c], [], by simp⟩
        rw [hasNlTriple_infix_mono h2 h1] at h
        cases h
      rw [ih 0 (by omega) (by simpa using hrest)]
      unfold nlRun
      rw [if_neg (by omega)]
      simp

theorem collapseNlAux_triple_free :
    ∀ (l : List Char) (k : Nat), hasNlTriple (collapseNlAux k l) = false := by
  intro l
  induction l with
  | nil =>
    intro k
    rw [collapseNlAux]
    unfold nlRun
    by_cases h3 : 3 ≤ k
    · rw [if_pos h3]; rfl
    · rw [if_neg h3]
      interval_cases k <;> rfl
  | cons c rest ih =>
    intro k
    rw [collapseNlAux]
    by_cases hc : c = '\n'
    · rw [if_pos hc]; exact ih (k + 1)
    · rw [if_neg hc]
      rw [hnt_run_cons (nlRun k) (nlRun_all_nl k) (nlRun_length_le k) c hc _]
      exact ih 0

theorem hsp_cons_ne (c : Char) (l : List Char) (hc : ¬ spTab c) :
    hasSpPair (c :: l) = hasSpPair l := by
  cases l with
  | nil => rfl
  | cons b l2 => rw [hasSpPair]; simp [hc]

theorem hsp_cons_mono (c : Char) (l : List Char) (h : hasSpPair l = true) :
    hasSpPair (c :: l) = true := by
  cases l with
  | nil => simp [hasSpPair] at h
  | cons b l2 => rw [hasSpPair]; simp [h]

theorem hsp_tail (c : Char) (l : List Char) (h : hasSpPair (c :: l) = false) :
    hasSpPair l = false := by
  by_contra hcon
  have h1 : hasSpPair l = true := by revert hcon; cases hasSpPair l <;> simp
  rw [hsp_cons_mono c l h1] at h
  cases h

theorem collapseSpAux_true_head (l : List Char) :
    ∃ t, collapseSpAux true l = ' ' :: t := by
  induction l with
  | nil => exact ⟨[], rfl⟩
  | cons c rest ih =>
    rw [collapseSpAux]
    by_cases hc : spTab c
    · rw [if_pos hc]; exact ih
    · rw [if_neg hc]; exact ⟨c :: collapseSpAux false rest, rfl⟩

theorem collapseSpAux_false_cons (rest : List Char) (hd : Char) (tl : List Char)
    (h : collapseSpAux false rest = hd :: tl) (hh : ¬ spTab hd) :
    ∃ r2, rest = hd :: r2 ∧ collapseSpAux false r2 = tl := by
  cases rest with
  | nil => exact absurd h (by simp [collapseSpAux])
  | cons c r2 =>
    rw [collapseSpAux] at h
    by_cases hc : spTab c
    · rw [if_pos hc] at h
      obtain ⟨t, ht⟩ := collapseSpAux_true_head r2
      rw [ht] at h
      injection h with h1 h2
      exact absurd (h1 ▸ hh) (by simp [spTab])
    · rw [if_neg hc] at h
      simp at h
      obtain ⟨h1, h2⟩ := h
      exact ⟨r2, by simp [h1], h2⟩

theorem collapseSpAux_id :
    ∀ (n : Nat) (l : List Char), l.length ≤ n → '\t' ∉ l →
      hasSpPair l = false → collapseSpAux false l = l := by
  intro n
  induction n with
  | zero =>
    intro l hl _ _
    have : l = [] := List.eq_nil_of_length_eq_zero (Nat.le_zero.mp hl)
    subst this; rfl
  | succ n ih =>
    intro l hl htab hsp
    cases l with
    | nil => rfl
    | cons c rest =>
      rw [collapseSpAux]
      by_cases hc : spTab c
      · rw [if_pos hc]
        have hcsp : c = ' ' := by
          rcases (by simpa [spTab] using hc : c = ' ' ∨ c = '\t') with h | h
          · exact h
          · exact absurd (h ▸ List.mem_cons_self c rest) htab
        cases rest with
        | nil => rw [collapseSpAux]; simp [hcsp]
        | cons c2 r2 =>
          have hc2 : ¬ spTab c2 := by
            intro hc2
            have : hasSpPair (c :: c2 :: r2) = true := by
              rw [hasSpPair]; simp [hc, hc2]
            rw [this] at hsp; cases hsp
          rw [collapseSpAux, if_neg hc2]
          have hr2 : collapseSpAux false r2 = r2 := by
            refine ih r2 (by simp at hl; omega) ?_ ?_
            · exact fun hm => htab (List.mem_cons_of_mem _ (List.mem_cons_of_mem _ hm))
            · exact hsp_tail c2 r2 (hsp_tail c (c2 :: r2) hsp)
          rw [hr2, hcsp]
          rfl
      · rw [if_neg hc]
        have hrest : collapseSpAux false rest = rest := by
          refine ih rest (by simp at hl; omega) ?_ (hsp_tail c rest hsp)
          exact fun hm => htab (List.mem_cons_of_mem _ hm)
        rw [hrest]
        rfl

theorem collapseSpAux_pair_free :
    ∀ (l : List Char) (p : Bool), hasSpPair (collapseSpAux p l) = false := by
  intro l
  induction l with
  | nil =>
    intro p
    cases p with
    | true => rfl
    | false => rfl
  | cons c rest ih =>
    intro p
    rw [collapseSpAux]
    by_cases hc : spTab c
    · rw [if_pos hc]; exact ih true
    · rw [if_neg hc]
      have base : hasSpPair (c :: collapseSpAux false rest) = false := by
        rw [hsp_cons_ne c _ hc]; exact ih false
      cases p with
      | false => simpa using base
      | true =>
        show hasSpPair (' ' :: c :: collapseSpAux false rest) = false
        rw [hasSpPair]
        simp [hc, base]

theorem collapseSpAux_no_tab :
    ∀ (l : List Char) (p : Bool), '\t' ∉ collapseSpAux p l := by
  intro l
  induction l with
  | nil =>
    intro p
    cases p with
    | true => simp [collapseSpAux]
    | false => simp [collapseSpAux]
  | cons c rest ih =>
    intro p
    rw [collapseSpAux]
    by_cases hc : spTab c
    · rw [if_pos hc]; exact ih true
    · rw [if_neg hc]
      intro hmem
      rcases List.mem_append.mp hmem with h1 | h2
      · cases p with
        | true => simp at h1
        | false => simp at h1
      · rcases List.mem_cons.mp h2 with h3 | h4
        · exact hc (by simp [spTab, ← h3])
        · exact ih false h4

theorem collapseSpAux_triple_preserve :
    ∀ (n : Nat) (l : List Char), l.length ≤ n → ∀ p : Bool,
      hasNlTriple (collapseSpAux p l) = true → hasNlTriple l = true := by
  intro n
  induction n with
  | zero =>
    intro l hl p h
    have : l = [] := List.eq_nil_of_length_eq_zero (Nat.le_zero.mp hl)
    subst this
    cases p with
    | true => simp [collapseSpAux, hasNlTriple] at h
    | false => simp [collapseSpAux, hasNlTriple] at h
  | succ n ih =>
    intro l hl p h
    cases l with
    | nil =>
      cases p with
      | true => simp [collapseSpAux, hasNlTriple] at h
      | false => simp [collapseSpAux, hasNlTriple] at h
    | cons c rest =>
      rw [collapseSpAux] at h
      by_cases hc : spTab c
      · rw [if_pos hc] at h
        have := ih rest (by simp at hl; omega) true h
        exact hnt_cons_mono c rest this
      · rw [if_neg hc] at h
        have hcn : hasNlTriple (c :: collapseSpAux false rest) = true := by
          cases p with
          | false => simpa using h
          | true =>
            have hsp' : (' ' : Char) ≠ '\n' := by decide
            rw [show ((if (true : Bool) then [' '] else []) ++ c :: collapseSpAux false rest)
                = ' ' :: c :: collapseSpAux false rest by rfl] at h
            rwa [hnt_cons_ne ' ' _ hsp'] at h
        cases hout : collapseSpAux false rest with
        | nil => rw [hout] at hcn; simp [hasNlTriple] at hcn
        | cons h1 t1 =>
          cases t1 with
          | nil => rw [hout] at hcn; simp [hasNlTriple] at hcn
          | cons h2 t2 =>
            rw [hout, hasNlTriple] at hcn
            rcases Bool.or_eq_true_iff.mp hcn with htriple | hrec
            · have hand : (c = '\n') ∧ (h1 = '\n') ∧ (h2 = '\n') := by
                simpa [and_assoc] using htriple
              obtain ⟨hcnl, h1nl, h2nl⟩ := hand
              obtain ⟨r2, hr2, hr2'⟩ := collapseSpAux_false_cons rest h1 (h2 :: t2) hout
                (by simp [spTab, h1nl])
              obtain ⟨r3, hr3, -⟩ := collapseSpAux_false_cons r2 h2 t2 hr2'
                (by simp [spTab, h2nl])
              refine (hasNlTriple_iff _).mpr ⟨[], r3, ?_⟩
              rw [hr2, hr3, hcnl, h1nl, h2nl]
              rfl
            · have : hasNlTriple (h1 :: h2 :: t2) = true := hrec
              rw [← hout] at this
              have := ih rest (by simp at hl; omega) false this
              exact hnt_cons_mono c rest this

theorem dropWhile_head_not (p : Char → Bool) :
    ∀ (l : List Char) (c : Char), (l.dropWhile p).head? = some c → p c = false := by
  intro l
  induction l with
  | nil => intro c h; simp at h
  | cons a rest ih =>
    intro c h
    by_cases ha : p a
    · rw [List.dropWhile_cons_of_pos ha] at h
      exact ih c h
    · rw [List.dropWhile_cons_of_neg ha] at h
      simp at h
      rw [← h]
      exact Bool.of_not_eq_true ha

theorem dropWhile_id (p : Char → Bool) (l : List Char)
    (h : ∀ c, l.head? = some c → p c = false) : l.dropWhile p = l := by
  cases l with
  | nil => rfl
  | cons a rest =>
    have := h a rfl
    rw [List.dropWhile_cons_of_neg (by simp [this])]

theorem getLast?_of_suffix {l₁ l₂ : List Char} (h : l₁ <:+ l₂) (hne : l₁ ≠ []) :
    l₁.getLast? = l₂.getLast? := by
  obtain ⟨t, rfl⟩ := h
  rw [List.getLast?_append_of_ne_nil _ hne]

theorem pyStrip_head_not_ws (l : List Char) (c : Char)
    (h : (pyStrip l).head? = some c) : pyWs c = false := by
  unfold pyStrip at h
  set A := l.dropWhile pyWs with hA
  set B := A.reverse.dropWhile pyWs with hB
  rw [List.head?_reverse] at h
  have hBne : B ≠ [] := by
    intro hB0
    rw [hB0] at h
    simp at h
  have hsuf : B <:+ A.reverse := List.dropWhile_suffix _
  have hlast : B.getLast? = A.reverse.getLast? := getLast?_of_suffix hsuf hBne
  rw [hlast, List.getLast?_reverse] at h
  exact dropWhile_head_not pyWs l c h

theorem pyStrip_last_not_ws (l : List Char) (c : Char)
    (h : (pyStrip l).getLast? = some c) : pyWs c = false := by
  unfold pyStrip at h
  rw [List.getLast?_reverse] at h
  exact dropWhile_head_not pyWs _ c h

theorem pyStrip_id (l : List Char)
    (hh : ∀ c, l.head? = some c → pyWs c = false)
    (hl : ∀ c, l.getLast? = some c → pyWs c = false) : pyStrip l = l := by
  unfold pyStrip
  rw [dropWhile_id pyWs l hh]
  rw [dropWhile_id pyWs l.reverse (fun c hc => hl c (by rwa [List.head?_reverse] at hc))]
  exact List.reverse_reverse l

theorem strReplaceChar_removes (t : Char) (rep l : List Char) (h : t ∉ rep) :
    t ∉ strReplaceChar t rep l := by
  intro hmem
  induction l with
  | nil => simp [strReplaceChar] at hmem
  | cons c rest ih =>
    simp only [strReplaceChar, List.flatMap_cons] at hmem
    rcases List.mem_append.mp hmem with h1 | h2
    · by_cases hc : c = t
      · rw [if_pos hc] at h1; exact h h1
      · rw [if_neg hc] at h1; simp at h1; exact hc h1.symm
    · exact ih h2

theorem escapeXml_id (l : List Char) (h : ∀ c ∈ l, isMarkupSpecial c = false) :
    escapeXml l = l := by
  have hmem : ∀ t : Char, isMarkupSpecial t = true → t ∉ l := by
    intro t ht hmem
    rw [h t hmem] at ht
    cases ht
  unfold escapeXml
  rw [strReplaceChar_of_not_mem '&' _ l (hmem '&' (by decide))]
  rw [strReplaceChar_of_not_mem '<' _ l (hmem '<' (by decide))]
  rw [strReplaceChar_of_not_mem '>' _ l (hmem '>' (by decide))]
  rw [strReplaceChar_of_not_mem '"' _ l (hmem '"' (by decide))]
  rw [strReplaceChar_of_not_mem '\'' _ l (hmem '\'' (by decide))]

theorem normCore_mem (l : List Char) (c : Char) (h : c ∈ normCore l) :
    c ∈ l ∨ c = '\n' ∨ c = ' ' := by
  unfold normCore at h
  have h1 := mem_pyStrip c _ h
  rcases mem_collapseSpAux c _ false h1 with h2 | h2
  · rcases mem_collapseNlAux c _ 0 h2 with h3 | h3
    · rcases mem_strReplaceChar '\r' _ _ c h3 with h4 | h4
      · simp at h4
        exact Or.inr (Or.inl h4)
      · rcases mem_replaceCrLf c l h4 with h5 | h5
        · exact Or.inl h5
        · exact Or.inr (Or.inl h5)
    · exact Or.inr (Or.inl h3)
  · exact Or.inr (Or.inr h2)

theorem normCore_no_cr (l : List Char) : '\r' ∉ normCore l := by
  intro h
  unfold normCore at h
  have h1 := mem_pyStrip _ _ h
  rcases mem_collapseSpAux _ _ false h1 with h2 | h2
  · rcases mem_collapseNlAux _ _ 0 h2 with h3 | h3
    · exact strReplaceChar_removes '\r' "\n".data _ (by decide) h3
    · cases h3
  · cases h2

theorem normCore_no_tab (l : List Char) : '\t' ∉ normCore l := by
  intro h
  unfold normCore at h
  exact collapseSpAux_no_tab _ false (mem_pyStrip _ _ h)

theorem normCore_triple_free (l : List Char) : hasNlTriple (normCore l) = false := by
  by_contra hcon
  have h1 : hasNlTriple (normCore l) = true := by
    revert hcon; cases hasNlTriple (normCore l) <;> simp
  unfold normCore at h1
  have h2 := hasNlTriple_infix_mono (pyStripInfixFact _) h1
  have h2' : hasNlTriple (collapseSpAux false
      (collapseNl (strReplaceChar '\r' "\n".data (replaceCrLf l)))) = true := h2
  have h3 := collapseSpAux_triple_preserve _ _ (le_refl _) false h2'
  have h3' : hasNlTriple (collapseNlAux 0
      (strReplaceChar '\r' "\n".data (replaceCrLf l))) = true := h3
  rw [collapseNlAux_triple_free _ 0] at h3'
  cases h3'

theorem normCore_pair_free (l : List Char) : hasSpPair (normCore l) = false := by
  by_contra hcon
  have h1 : hasSpPair (normCore l) = true := by
    revert hcon; cases hasSpPair (normCore l) <;> simp
  unfold normCore at h1
  have h2 := hasSpPair_infix_mono (pyStripInfixFact _) h1
  have h2' : hasSpPair (collapseSpAux false
      (collapseNl (strReplaceChar '\r' "\n".data (replaceCrLf l)))) = true := h2
  rw [collapseSpAux_pair_free _ false] at h2'
  cases h2'

theorem normCore_id (u : List Char) (hcr : '\r' ∉ u) (hnt : hasNlTriple u = false)
    (htab : '\t' ∉ u) (hsp : hasSpPair u = false)
    (hh : ∀ c, u.head? = some c → pyWs c = false)
    (hl : ∀ c, u.getLast? = some c → pyWs c = false) :
    normCore u = u := by
  unfold normCore
  rw [replaceCrLf_of_not_mem u hcr]
  rw [strReplaceChar_of_not_mem '\r' _ u hcr]
  have hcnl : collapseNl u = u := by
    have := collapseNlAux_id u 0 (by omega) (by simpa using hnt)
    simpa [collapseNl] using this
  rw [hcnl]
  have hcsp : collapseSp u = u :=
    collapseSpAux_id u.length u (le_refl _) htab hsp
  rw [hcsp]
  exact pyStrip_id u hh hl

/-- C7 counterexample: `_preprocess_text` is not idempotent — escaping runs
first and re-escapes its own output, so `"&"` becomes `"&amp;"` after one
pass and `"&amp;amp;"` after two. -/
theorem C7_counterexample :
    preprocess_text (preprocess_text "&") ≠ preprocess_text "&" ∧
    preprocess_text "&" = "&amp;" ∧
    preprocess_text (preprocess_text "&") = "&amp;amp;" := by
  exact ⟨by decide, by decide, by decide⟩

/-- C7 amended: `_preprocess_text` is idempotent on every text containing
none of the five markup-reserved characters `& < > " '` (on such text the
escaping pass is the identity, and the newline/whitespace normalization and
strip reach a fixed point after one application); re-escaping of `&` makes
it non-idempotent on any text containing a reserved character. -/
theorem C7_preprocess_idempotent_without_specials (T : String)
    (h : ∀ c ∈ T.data, isMarkupSpecial c = false) :
    preprocess_text (preprocess_text T) = preprocess_text T := by
  have hesc : escapeXml T.data = T.data := escapeXml_id T.data h
  have hp1 : preprocess_text T = String.mk (normCore T.data) := by
    unfold preprocess_text normCore
    rw [hesc]
  have hspec : ∀ c ∈ normCore T.data, isMarkupSpecial c = false := by
    intro c hc
    rcases normCore_mem T.data c hc with h1 | h1 | h1
    · exact h c h1
    · rw [h1]; rfl
    · rw [h1]; rfl
  have hedgeh : ∀ c, (normCore T.data).head? = some c → pyWs c = false := by
    intro c hc
    exact pyStrip_head_not_ws _ c hc
  have hedgel : ∀ c, (normCore T.data).getLast? = some c → pyWs c = false := by
    intro c hc
    exact pyStrip_last_not_ws _ c hc
  rw [hp1]
  have hp2 : preprocess_text (String.mk (normCore T.data))
      = String.mk (normCore (escapeXml (normCore T.data))) := by
    unfold preprocess_text normCore
    rfl
  rw [hp2, escapeXml_id _ hspec,
    normCore_id _ (normCore_no_cr T.data) (normCore_triple_free T.data)
      (normCore_no_tab T.data) (normCore_pair_free T.data) hedgeh hedgel]

/-- C7 witness: idempotence applied to a concrete reserved-character-free
text with whitespace to normalize. -/
theorem C7_preprocess_idempotent_without_specials_witness :
    preprocess_text (preprocess_text "a \t b\r\nc\n\n\n\nd") =
      preprocess_text "a \t b\r\nc\n\n\n\nd" :=
  C7_preprocess_idempotent_without_specials "a \t b\r\nc\n\n\n\nd" (by decide)

theorem substTok_length (cp : List Char) :
    ∀ tl : List Tok, (substTok cp tl).length = litLen tl + holes tl * cp.length := by
  intro tl
  induction tl with
  | nil => simp [substTok, litLen, holes]
  | cons t r ih =>
    cases t with
    | lit s =>
      show (s ++ substTok cp r).length = _
      rw [List.length_append, ih]
      simp [litLen, holes, List.countP_cons, isHole]
      ring
    | hole =>
      show (cp ++ substTok cp r).length = _
      rw [List.length_append, ih]
      simp [litLen, holes, List.countP_cons, isHole]
      ring

theorem substTok_ne (a b : List Char) (hab : a ≠ b) :
    ∀ tl : List Tok, 0 < holes tl → substTok a tl ≠ substTok b tl := by
  by_cases hlen : a.length = b.length
  · intro tl
    induction tl with
    | nil => intro h; simp [holes] at h
    | cons t r ih =>
      intro hh heq
      cases t with
      | lit s =>
        have heq' : s ++ substTok a r = s ++ substTok b r := heq
        have : substTok a r = substTok b r := by
          exact List.append_cancel_left heq'
        have hh' : 0 < holes r := by
          simpa [holes, List.countP_cons, isHole] using hh
        exact ih hh' this
      | hole =>
        have heq' : a ++ substTok a r = b ++ substTok b r := heq
        have := List.append_inj_left heq' hlen
        exact hab this
  · intro tl hh heq
    have := congrArg List.length heq
    rw [substTok_length a tl, substTok_length b tl] at this
    have hne : holes tl ≠ 0 := by omega
    have : a.length = b.length := by
      have h2 : holes tl * a.length = holes tl * b.length := by omega
      exact Nat.eq_of_mul_eq_mul_left (by omega) h2
    exact hlen this

@[simp] theorem substTok_append (cp : List Char) (t1 t2 : List Tok) :
    substTok cp (t1 ++ t2) = substTok cp t1 ++ substTok cp t2 := by
  simp [substTok]

@[simp] theorem substTok_cons (cp : List Char) (t : Tok) (tl : List Tok) :
    substTok cp (t :: tl) = renderTok cp t ++ substTok cp tl := by
  simp [substTok]

@[simp] theorem substTok_nil (cp : List Char) : substTok cp [] = [] := rfl

theorem setCp_self (cfg : SSMLConfig) : setCp cfg cfg.«structure».comma_pause = cfg := rfl

theorem insert_breaks_fact (cfg : SSMLConfig) (cp : String) (hcp : '、' ∉ cp.data) :
    ∀ s : List Char,
      insert_sentence_breaks (setCp cfg cp) s = substTok cp.data (insertBreaksTok s) := by
  intro s
  induction s with
  | nil => rfl
  | cons c rest ih =>
    unfold insert_sentence_breaks at ih ⊢
    show strReplaceChar '、' _ (strReplaceChar '，' _ (c :: rest)) = _
    have hdist : ∀ (t : Char) (rep a b : List Char),
        strReplaceChar t rep (a ++ b) = strReplaceChar t rep a ++ strReplaceChar t rep b := by
      intro t rep a b
      simp [strReplaceChar]
    have hcons : ∀ (t : Char) (rep : List Char) (c0 : Char) (r : List Char),
        strReplaceChar t rep (c0 :: r)
          = (if c0 = t then rep else [c0]) ++ strReplaceChar t rep r := by
      intro t rep c0 r
      simp [strReplaceChar]
    rw [hcons '，' _ c rest, hdist '、' _ _ _, ih]
    show _ = substTok cp.data (tokChar c ++ insertBreaksTok rest)
    rw [substTok_append]
    congr 1
    by_cases h1 : c = '，'
    · rw [if_pos h1]
      have hno : '、' ∉ ("，<break time=\"" ++ (setCp cfg cp).«structure».comma_pause
          ++ "\"/>").data := by
        show '、' ∉ ("，<break time=\"" ++ cp ++ "\"/>").data
        simp only [String.data_append]
        intro hm
        rcases List.mem_append.mp hm with hm1 | hm2
        · rcases List.mem_append.mp hm1 with hm3 | hm4
          · revert hm3; decide
          · exact hcp hm4
        · revert hm2; decide
      rw [strReplaceChar_of_not_mem _ _ _ hno]
      show ("，<break time=\"" ++ cp ++ "\"/>").data = _
      rw [h1]
      show _ = substTok cp.data [Tok.lit "，<break time=\"".data, Tok.hole, Tok.lit "\"/>".data]
      simp [substTok, renderTok, String.data_append]
    · rw [if_neg h1]
      by_cases h2 : c = '、'
      · rw [hcons '、' _ c [], if_pos h2]
        show ("、<break time=\"" ++ cp ++ "\"/>").data ++ strReplaceChar '、' _ [] = _
        rw [h2]
        show _ = substTok cp.data [Tok.lit "、<break time=\"".data, Tok.hole, Tok.lit "\"/>".data]
        simp [substTok, renderTok, String.data_append, strReplaceChar]
      · rw [hcons '、' _ c [], if_neg h2]
        show [c] ++ strReplaceChar '、' _ [] = _
        rw [show tokChar c = [Tok.lit [c]] from by simp [tokChar, h1, h2]]
        simp [substTok, renderTok, strReplaceChar]

theorem calculate_rate_setCp (cfg : SSMLConfig) (cp : String) (op en : Bool) :
    calculate_rate (setCp cfg cp) op en = calculate_rate cfg op en := rfl

@[simp] theorem setCp_sentence_pause (cfg : SSMLConfig) (cp : String) :
    (setCp cfg cp).«structure».sentence_pause = cfg.«structure».sentence_pause := rfl

@[simp] theorem setCp_paragraph_pause (cfg : SSMLConfig) (cp : String) :
    (setCp cfg cp).«structure».paragraph_pause = cfg.«structure».paragraph_pause := rfl

theorem process_sentence_fact (cfg : SSMLConfig) (cp : String) (hcp : '、' ∉ cp.data)
    (s : List Char) (op en : Bool) :
    process_sentence (setCp cfg cp) s op en
      = substTok cp.data (processSentenceTok cfg s op en) := by
  unfold process_sentence processSentenceTok
  rw [insert_breaks_fact cfg cp hcp s]
  rw [calculate_rate_setCp]
  show "<prosody ".data
      ++ (("rate=\"" ++ calculate_rate cfg op en ++ "\"").data
        ++ (if cfg.mood.pitch ≠ "" ∧ cfg.mood.pitch ≠ "0%" then
              (" pitch=\"" ++ cfg.mood.pitch ++ "\"").data
            else [])
        ++ optAttr "volume" cfg.mood.volume)
      ++ ['>'] ++ substTok cp.data (insertBreaksTok s) ++ "</prosody>".data = _
  simp [substTok, renderTok, List.append_assoc]

theorem sentLoop_fact (cfg : SSMLConfig) (cp : String) (hcp : '、' ∉ cp.data)
    (isFirst isLast : Bool) :
    ∀ (ss : List (List Char)) (fs : Bool),
      sentLoop (setCp cfg cp) isFirst isLast fs ss
        = substTok cp.data (sentLoopTok cfg isFirst isLast fs ss) := by
  intro ss
  induction ss with
  | nil => intro fs; rfl
  | cons s rest ih =>
    intro fs
    cases rest with
    | nil =>
      show process_sentence (setCp cfg cp) s (isFirst && fs) isLast = _
      rw [process_sentence_fact cfg cp hcp]
      rfl
    | cons s2 rest2 =>
      show process_sentence (setCp cfg cp) s (isFirst && fs) false
          ++ breakTag (setCp cfg cp).«structure».sentence_pause
          ++ sentLoop (setCp cfg cp) isFirst isLast false (s2 :: rest2) = _
      rw [process_sentence_fact cfg cp hcp, ih false]
      show _ = substTok cp.data (processSentenceTok cfg s (isFirst && fs) false
          ++ Tok.lit (breakTag cfg.«structure».sentence_pause)
          :: sentLoopTok cfg isFirst isLast false (s2 :: rest2))
      rw [substTok_append, substTok_cons]
      show _ = substTok cp.data (processSentenceTok cfg s (isFirst && fs) false)
          ++ (breakTag cfg.«structure».sentence_pause
            ++ substTok cp.data (sentLoopTok cfg isFirst isLast false (s2 :: rest2)))
      simp [List.append_assoc]

theorem process_paragraph_fact (cfg : SSMLConfig) (cp : String) (hcp : '、' ∉ cp.data)
    (p : List Char) (isFirst isLast : Bool) :
    process_paragraph (setCp cfg cp) p isFirst isLast
      = (processParagraphTok cfg p isFirst isLast).map (substTok cp.data) := by
  unfold process_paragraph processParagraphTok
  have hmx : (setCp cfg cp).«structure».max_sentence_len
      = cfg.«structure».max_sentence_len := rfl
  rw [hmx]
  cases hss : split_sentences cfg.«structure».max_sentence_len p with
  | error e => simp [hss, Except.map]
  | ok ss =>
    simp [hss, Except.map]
    exact sentLoop_fact cfg cp hcp isFirst isLast ss true

theorem paraLoop_fact (cfg : SSMLConfig) (cp : String) (hcp : '、' ∉ cp.data) :
    ∀ (ps : List (List Char)) (fp : Bool),
      paraLoop (setCp cfg cp) fp ps
        = (paraLoopTok cfg fp ps).map (substTok cp.data) := by
  intro ps
  induction ps with
  | nil => intro fp; rfl
  | cons p rest ih =>
    intro fp
    cases rest with
    | nil =>
      show process_paragraph (setCp cfg cp) p fp true = _
      exact process_paragraph_fact cfg cp hcp p fp true
    | cons q rest2 =>
      show (do
          let a ← process_paragraph (setCp cfg cp) p fp false
          let b ← paraLoop (setCp cfg cp) false (q :: rest2)
          Except.ok (a ++ breakTag (setCp cfg cp).«structure».paragraph_pause ++ b)) = _
      rw [process_paragraph_fact cfg cp hcp p fp false, ih false]
      show _ = (do
          let a ← processParagraphTok cfg p fp false
          let b ← paraLoopTok cfg false (q :: rest2)
          Except.ok (a ++ Tok.lit (breakTag cfg.«structure».paragraph_pause) :: b)).map
            (substTok cp.data)
      cases ha : processParagraphTok cfg p fp false with
      | error e => simp [Except.map]
      | ok a =>
        cases hb : paraLoopTok cfg false (q :: rest2) with
        | error e => simp [Except.map]
        | ok b =>
          simp [Except.map, substTok_append, substTok_cons, renderTok]

theorem generate_fact (cfg : SSMLConfig) (cp : String) (hcp : '、' ∉ cp.data) (T : String) :
    generate_ssml (setCp cfg cp) T
      = (generateTok cfg T).map (fun tl => String.mk (substTok cp.data tl)) := by
  unfold generate_ssml generateTok
  simp only []
  rw [paraLoop_fact cfg cp hcp (split_paragraphs (preprocess_text T)) true]
  have hv : voiceAttrs (setCp cfg cp) = voiceAttrs cfg := rfl
  rw [hv]
  cases hb : paraLoopTok cfg true (split_paragraphs (preprocess_text T)) with
  | error e => simp [Except.map]
  | ok body =>
    simp [Except.map, substTok_append, substTok_cons, renderTok]

/-- C8: determinism holds, but the comma-pause sensitivity part of the claim
is false as stated: `"a，b"` contains the comma-class character `'，'`, yet
under two configs that differ only in `comma_pause` (with
`max_sentence_len = 1`) the outputs are *identical*, because
`_split_long_sentence` drops the comma while splitting the over-long
sentence, so no comma break is ever rendered. -/
theorem C8_counterexample :
    generate_ssml c8cexA "a，b" = generate_ssml (setCp c8cexA "999ms") "a，b" ∧
    c8cexA.«structure».comma_pause ≠ (setCp c8cexA "999ms").«structure».comma_pause ∧
    '，' ∈ "a，b".data := by
  exact ⟨by rfl, by decide, by decide⟩

/-- C8 amended: markup generation is deterministic, and two configs that are
identical except for distinct `Structure.comma_pause` values (neither pause
string containing the replaced character `'、'`) produce different markup for
every text whose rendered template keeps at least one comma-pause site —
i.e. whenever a `'，'`/`'、'` of the text survives sentence splitting.  (The
counterexample shows the site can be lost when the long-sentence splitter
drops a comma.) -/
theorem C8_deterministic_and_comma_pause_sensitive :
    (∀ (cfg : SSMLConfig) (T : String), generate_ssml cfg T = generate_ssml cfg T) ∧
    (∀ (cfg : SSMLConfig) (cp2 T : String) (tl : List Tok),
      generateTok cfg T = Except.ok tl →
      0 < holes tl →
      cfg.«structure».comma_pause ≠ cp2 →
      '、' ∉ cfg.«structure».comma_pause.data →
      '、' ∉ cp2.data →
      generate_ssml cfg T ≠ generate_ssml (setCp cfg cp2) T) := by
  refine ⟨fun cfg T => rfl, ?_⟩
  intro cfg cp2 T tl htl hholes hne hc1 hc2 heq
  have e1 : generate_ssml cfg T
      = Except.ok (String.mk (substTok cfg.«structure».comma_pause.data tl)) := by
    conv_lhs => rw [← setCp_self cfg]
    rw [generate_fact cfg cfg.«structure».comma_pause hc1 T, htl]
    rfl
  have e2 : generate_ssml (setCp cfg cp2) T
      = Except.ok (String.mk (substTok cp2.data tl)) := by
    rw [generate_fact cfg cp2 hc2 T, htl]
    rfl
  rw [e1, e2] at heq
  injection heq with heq
  have hdata : substTok cfg.«structure».comma_pause.data tl = substTok cp2.data tl := by
    have := congrArg String.data heq
    simpa using this
  have hdne : cfg.«structure».comma_pause.data ≠ cp2.data := by
    intro hd
    apply hne
    have h1 : String.mk cfg.«structure».comma_pause.data = String.mk cp2.data := by rw [hd]
    simpa using h1
  exact substTok_ne _ _ hdne tl hholes hdata

/-- C8 witness: with the default config, text `"你好，世界。"` keeps its comma
site, and changing only `comma_pause` to `"500ms"` changes the markup. -/
theorem C8_deterministic_and_comma_pause_sensitive_witness :
    generate_ssml {} "你好，世界。" ≠ generate_ssml (setCp {} "500ms") "你好，世界。" :=
  C8_deterministic_and_comma_pause_sensitive.2 {} "500ms" "你好，世界。"
    ((generateTok {} "你好，世界。").toOption.getD []) rfl (by decide) (by decide)
    (by decide) (by decide)


end AIVoice
